import Mathlib

/-!
Verification of the binary codec and merge engine of `update_dictionary.py`.

Shallow embedding conventions:
* a Python `bytes` buffer is a `List Nat` (each element is a byte value below 256);
* a Python `str` is represented by its UTF-8 byte sequence (`Bytes`); Python's
  strict `str`/UTF-8 codec is a bijection between strings and valid UTF-8 byte
  sequences, and `utf8Valid` implements that validity check, so
  `value.decode("utf-8")` becomes `if utf8Valid value then some value else none`
  (failure raising `UnicodeDecodeError` where the source lets it propagate);
* the single Python exception class `ProtoDecodeError` carries distinct message
  strings; each raise site is mapped to a distinct constructor of `PErr`
  ("Unexpected end of data ..." to `truncatedInput`, "Varint is too long" to
  `varintTooLong`, "Unsupported wire type" to `unsupportedWireType`,
  "Dictionary record missing required fields" to `missingRequiredField`), and
  the encode-side `ValueError` raises map to `invalidValue`; `UnicodeDecodeError`
  on a dictionary name maps to `invalidEncoding`;
* `secrets.randbits(64)` draws are modelled by an explicit stream `draws`; the
  retry loop of `generate_dictionary_id` returns the first acceptable draw, and
  `none` models the case where the loop never terminates on that stream;
* functions that loop over a buffer index are written as structural recursion
  consuming the front of the byte list, with an explicit fuel argument equal to
  the buffer length so that every definition is executable and kernel-reducible;
  fuel-irrelevance lemmas show the fuel never runs out.
-/

deriving instance DecidableEq for Except

namespace UD

/-- Error kinds of the codec, one per raise site of the source. -/
inductive PErr where
  | truncatedInput
  | varintTooLong
  | unsupportedWireType
  | invalidValue
  | invalidEncoding
  | missingRequiredField
deriving DecidableEq, Repr

/-- Byte buffers: Python `bytes` as a list of byte values. -/
abbrev Bytes := List Nat

/-- Decoded wire value: a Python `int` (for VARINT) or `bytes` slice. -/
inductive FieldValue where
  | nat (n : Nat)
  | bytes (bs : Bytes)
deriving DecidableEq, Repr

/-- A decoded field `(field_number, wire_type, value)`, as in the source's
`Field = tuple[int, int, Union[int, bytes]]`. -/
abbrev Field := Nat × Nat × FieldValue

/-- The `DictionaryData` dataclass: `name` is the UTF-8 byte sequence of the
Python `str`. -/
structure DictionaryData where
  dict_id : Nat
  name : Bytes
  entries_raw : List Bytes
  unknown_fields : List Field
deriving DecidableEq, Repr

instance : Inhabited DictionaryData := ⟨⟨0, [], [], []⟩⟩

/-- The `stats` dictionary returned by `update_dictionary`. -/
structure Stats where
  dictionary_name : Bytes
  dictionary_id : Nat
  created : Bool
  keys : Nat
  entries : Nat
deriving DecidableEq, Repr

/-- Loop body of `decode_varint`: `shift`/`result` are the loop state; the
byte list is the buffer from the current index on, and the returned `Bytes`
is the remaining buffer (the source returns the new index instead). -/
def decode_varint_aux : Nat → Nat → List Nat → Except PErr (Nat × Bytes)
  | _, _, [] => .error .truncatedInput
  | shift, result, b :: rest =>
    if b < 128 then .ok (result ||| ((b % 128) <<< shift), rest)
    else if shift + 7 > 70 then .error .varintTooLong
    else decode_varint_aux (shift + 7) (result ||| ((b % 128) <<< shift)) rest

/-- The function `decode_varint` of the source, consuming the front of the
buffer. -/
def decode_varint (data : List Nat) : Except PErr (Nat × Bytes) :=
  decode_varint_aux 0 0 data

/-- Loop body of `encode_varint`, with fuel (the value itself bounds the
number of 7-bit groups, so `encode_varint` passes the value as fuel). -/
def encode_varint_aux : Nat → Nat → Bytes
  | 0, v => [v % 128]
  | fuel + 1, v =>
    if v / 128 = 0 then [v % 128]
    else (v % 128 ||| 128) :: encode_varint_aux fuel (v / 128)

/-- The function `encode_varint` of the source. Values are `Nat`, so the
negative-value `ValueError` branch of the source is unrepresentable. -/
def encode_varint (v : Nat) : Bytes := encode_varint_aux v v

/-- The function `encode_tag` of the source. -/
def encode_tag (field_number wire_type : Nat) : Bytes :=
  encode_varint ((field_number <<< 3) ||| wire_type)

/-- Byte encoding of a VARINT field, the `WIRE_VARINT` arm of
`encode_raw_field`. -/
def encodeVarintField (field_number n : Nat) : Bytes :=
  encode_tag field_number 0 ++ encode_varint n

/-- Byte encoding of a LENGTH_DELIMITED field, the `WIRE_LENGTH_DELIMITED`
arm of `encode_raw_field`. -/
def encodeLD (field_number : Nat) (bs : Bytes) : Bytes :=
  encode_tag field_number 2 ++ encode_varint bs.length ++ bs

/-- The function `encode_raw_field` of the source; the `isinstance` kind
checks become matches on `FieldValue`, and wrong kinds or lengths produce
`invalidValue` like the source's `ValueError`. -/
def encode_raw_field (field_number wire_type : Nat) (value : FieldValue) :
    Except PErr Bytes :=
  if wire_type = 0 then
    match value with
    | .nat n => .ok (encodeVarintField field_number n)
    | .bytes _ => .error .invalidValue
  else if wire_type = 1 then
    match value with
    | .bytes bs =>
      if bs.length = 8 then .ok (encode_tag field_number 1 ++ bs)
      else .error .invalidValue
    | .nat _ => .error .invalidValue
  else if wire_type = 2 then
    match value with
    | .bytes bs => .ok (encodeLD field_number bs)
    | .nat _ => .error .invalidValue
  else if wire_type = 5 then
    match value with
    | .bytes bs =>
      if bs.length = 4 then .ok (encode_tag field_number 5 ++ bs)
      else .error .invalidValue
    | .nat _ => .error .invalidValue
  else .error .unsupportedWireType

/-- Concatenated encoding of a field sequence, as done by the callers of
`encode_raw_field` (`build_dictionary` and `build_storage` loop over fields
and join the parts). -/
def encodeFields : List Field → Except PErr Bytes
  | [] => .ok []
  | (fn, wt, v) :: fs =>
    match encode_raw_field fn wt v with
    | .error e => .error e
    | .ok b =>
      match encodeFields fs with
      | .error e => .error e
      | .ok rest => .ok (b ++ rest)

/-- Loop body of `parse_fields` with explicit fuel; each iteration consumes
at least the tag byte, so fuel equal to the buffer length never runs out. -/
def parse_fields_aux : Nat → List Nat → Except PErr (List Field)
  | _, [] => .ok []
  | 0, _ :: _ => .error .truncatedInput
  | fuel + 1, b :: bs =>
    match decode_varint (b :: bs) with
    | .error e => .error e
    | .ok (tag, r1) =>
      if tag &&& 7 = 0 then
        match decode_varint r1 with
        | .error e => .error e
        | .ok (v, r2) =>
          match parse_fields_aux fuel r2 with
          | .error e => .error e
          | .ok fs => .ok ((tag >>> 3, tag &&& 7, .nat v) :: fs)
      else if tag &&& 7 = 1 then
        if r1.length < 8 then .error .truncatedInput
        else
          match parse_fields_aux fuel (r1.drop 8) with
          | .error e => .error e
          | .ok fs => .ok ((tag >>> 3, tag &&& 7, .bytes (r1.take 8)) :: fs)
      else if tag &&& 7 = 2 then
        match decode_varint r1 with
        | .error e => .error e
        | .ok (len, r2) =>
          if r2.length < len then .error .truncatedInput
          else
            match parse_fields_aux fuel (r2.drop len) with
            | .error e => .error e
            | .ok fs => .ok ((tag >>> 3, tag &&& 7, .bytes (r2.take len)) :: fs)
      else if tag &&& 7 = 5 then
        if r1.length < 4 then .error .truncatedInput
        else
          match parse_fields_aux fuel (r1.drop 4) with
          | .error e => .error e
          | .ok fs => .ok ((tag >>> 3, tag &&& 7, .bytes (r1.take 4)) :: fs)
      else .error .unsupportedWireType

/-- The function `parse_fields` of the source. -/
def parse_fields (data : List Nat) : Except PErr (List Field) :=
  parse_fields_aux data.length data

/-- Continuation-byte test of UTF-8 (second and later bytes of a sequence). -/
def utf8Cont (c : Nat) : Prop := 0x80 ≤ c ∧ c < 0xC0

instance : DecidablePred utf8Cont := fun _ => instDecidableAnd

/-- Validity of a byte sequence under Python's strict `utf-8` codec: the
standard UTF-8 table, rejecting overlong forms, surrogates and values above
U+10FFFF. A Python `str` corresponds exactly to a valid sequence, so
`bytes.decode("utf-8")` succeeds iff this holds, and `str.encode("utf-8")`
is the identity in this representation. -/
def utf8Valid : List Nat → Bool
  | [] => true
  | b :: rest =>
    if b < 0x80 then utf8Valid rest
    else if b < 0xC2 then false
    else if b < 0xE0 then
      match rest with
      | c1 :: r => if utf8Cont c1 then utf8Valid r else false
      | [] => false
    else if b < 0xE1 then
      match rest with
      | c1 :: c2 :: r =>
        if (0xA0 ≤ c1 ∧ c1 < 0xC0) ∧ utf8Cont c2 then utf8Valid r else false
      | _ => false
    else if b < 0xED then
      match rest with
      | c1 :: c2 :: r => if utf8Cont c1 ∧ utf8Cont c2 then utf8Valid r else false
      | _ => false
    else if b < 0xEE then
      match rest with
      | c1 :: c2 :: r =>
        if (0x80 ≤ c1 ∧ c1 < 0xA0) ∧ utf8Cont c2 then utf8Valid r else false
      | _ => false
    else if b < 0xF0 then
      match rest with
      | c1 :: c2 :: r => if utf8Cont c1 ∧ utf8Cont c2 then utf8Valid r else false
      | _ => false
    else if b < 0xF1 then
      match rest with
      | c1 :: c2 :: c3 :: r =>
        if (0x90 ≤ c1 ∧ c1 < 0xC0) ∧ utf8Cont c2 ∧ utf8Cont c3 then utf8Valid r
        else false
      | _ => false
    else if b < 0xF4 then
      match rest with
      | c1 :: c2 :: c3 :: r =>
        if utf8Cont c1 ∧ utf8Cont c2 ∧ utf8Cont c3 then utf8Valid r else false
      | _ => false
    else if b < 0xF5 then
      match rest with
      | c1 :: c2 :: c3 :: r =>
        if (0x80 ≤ c1 ∧ c1 < 0x90) ∧ utf8Cont c2 ∧ utf8Cont c3 then utf8Valid r
        else false
      | _ => false
    else false

/-- Loop of `parse_dictionary` over the decoded fields, with the four
accumulators `dict_id`, `name`, `entries`, `unknown` of the source. The
branches whose value kind cannot arise from `parse_fields` (a VARINT field
carrying bytes, and the `isinstance` guard on ENTRY fields) are kept: the
first would crash in Python (`invalidValue` here), the second silently
skips, exactly as `if isinstance(...)` with no else does. -/
def parseDictFields :
    List Field → Option Nat → Option Bytes → List Bytes → List Field →
    Except PErr DictionaryData
  | [], dict_id, name, entries, unknown =>
    match dict_id, name with
    | some i, some n => .ok ⟨i, n, entries, unknown⟩
    | _, _ => .error .missingRequiredField
  | (fn, wt, v) :: fs, dict_id, name, entries, unknown =>
    if fn = 1 ∧ wt = 0 then
      match v with
      | .nat n => parseDictFields fs (some n) name entries unknown
      | .bytes _ => .error .invalidValue
    else if fn = 3 ∧ wt = 2 then
      match v with
      | .bytes bs =>
        if utf8Valid bs then parseDictFields fs dict_id (some bs) entries unknown
        else .error .invalidEncoding
      | .nat _ => .error .invalidValue
    else if fn = 4 ∧ wt = 2 then
      match v with
      | .bytes bs => parseDictFields fs dict_id name (entries ++ [bs]) unknown
      | .nat _ => parseDictFields fs dict_id name entries unknown
    else parseDictFields fs dict_id name entries (unknown ++ [(fn, wt, v)])

/-- The function `parse_dictionary` of the source. -/
def parse_dictionary (raw : Bytes) : Except PErr DictionaryData :=
  match parse_fields raw with
  | .error e => .error e
  | .ok fs => parseDictFields fs none none [] []

/-- Loop of `parse_storage` over the decoded top-level fields. -/
def parseStorageFields :
    List Field → Except PErr (List DictionaryData × List Field)
  | [] => .ok ([], [])
  | (fn, wt, v) :: fs =>
    if fn = 2 ∧ wt = 2 then
      match v with
      | .bytes bs =>
        match parse_dictionary bs with
        | .error e => .error e
        | .ok d =>
          match parseStorageFields fs with
          | .error e => .error e
          | .ok (ds, unknown) => .ok (d :: ds, unknown)
      | .nat _ => .error .invalidValue
    else
      match parseStorageFields fs with
      | .error e => .error e
      | .ok (ds, unknown) => .ok (ds, (fn, wt, v) :: unknown)

/-- The function `parse_storage` of the source. -/
def parse_storage (raw : Bytes) :
    Except PErr (List DictionaryData × List Field) :=
  match parse_fields raw with
  | .error e => .error e
  | .ok fs => parseStorageFields fs

/-- Loop of `parse_entry_key` over the decoded fields: the first KEY field
decides; a `UnicodeDecodeError` on it is caught and yields `None`. -/
def findEntryKey : List Field → Option Bytes
  | [] => none
  | (fn, wt, v) :: fs =>
    if fn = 1 ∧ wt = 2 then
      match v with
      | .bytes bs => if utf8Valid bs then some bs else none
      | .nat _ => none
    else findEntryKey fs

/-- The function `parse_entry_key` of the source. A `ProtoDecodeError`
raised by `parse_fields` on the entry blob is not caught and propagates. -/
def parse_entry_key (raw : Bytes) : Except PErr (Option Bytes) :=
  match parse_fields raw with
  | .error e => .error e
  | .ok fs => .ok (findEntryKey fs)

/-- The function `build_entry` of the source: the four fields in fixed
order KEY, VALUE, COMMENT, POS; `encode_raw_field` on these arguments always
succeeds and produces exactly these bytes. -/
def build_entry (key value comment : Bytes) (pos : Nat) : Bytes :=
  encodeLD 1 key ++ encodeLD 2 value ++ encodeLD 4 comment ++
    encodeVarintField 5 pos

/-- Encoding of the ENTRY fields inside `build_dictionary`. -/
def encodeEntries : List Bytes → Bytes
  | [] => []
  | e :: es => encodeLD 4 e ++ encodeEntries es

/-- The function `build_dictionary` of the source: ID, NAME, the entries,
then the unknown fields. Only the unknown fields can make
`encode_raw_field` fail, so the result is an `Except`. -/
def build_dictionary (d : DictionaryData) : Except PErr Bytes :=
  match encodeFields d.unknown_fields with
  | .error e => .error e
  | .ok uk =>
    .ok (encodeVarintField 1 d.dict_id ++ encodeLD 3 d.name ++
      encodeEntries d.entries_raw ++ uk)

/-- Loop of `build_storage` over the dictionaries. -/
def buildStorageDicts : List DictionaryData → Except PErr Bytes
  | [] => .ok []
  | d :: ds =>
    match build_dictionary d with
    | .error e => .error e
    | .ok payload =>
      match buildStorageDicts ds with
      | .error e => .error e
      | .ok rest => .ok (encodeLD 2 payload ++ rest)

/-- The function `build_storage` of the source. -/
def build_storage (dictionaries : List DictionaryData)
    (unknown_fields : List Field) : Except PErr Bytes :=
  match buildStorageDicts dictionaries with
  | .error e => .error e
  | .ok db =>
    match encodeFields unknown_fields with
    | .error e => .error e
    | .ok ub => .ok (db ++ ub)

/-- The function `generate_dictionary_id` of the source. The stream of
`secrets.randbits(64)` results is the explicit argument `draws`; the loop
returns the first draw that is nonzero and not already used, and `none`
models a stream on which the loop never terminates. -/
def generate_dictionary_id (draws : List Nat) (existing : List Nat) :
    Option Nat :=
  draws.find? fun c => !(c == 0) && !(existing.contains c)

/-- The function `filter_entries_by_key` of the source: keep an entry iff
its parsed key is `None` or not in the removal set; a `ProtoDecodeError`
from `parse_entry_key` propagates. -/
def filter_entries_by_key (entries : List Bytes) (keys_to_remove : List Bytes) :
    Except PErr (List Bytes) :=
  match entries with
  | [] => .ok []
  | e :: es =>
    match parse_entry_key e with
    | .error err => .error err
    | .ok key =>
      match filter_entries_by_key es keys_to_remove with
      | .error err => .error err
      | .ok kept =>
        match key with
        | none => .ok (e :: kept)
        | some k =>
          if keys_to_remove.contains k then .ok kept else .ok (e :: kept)

/-- The function `build_entries_for_keys` of the source, with the
`values_by_key` mapping as a function (the source builds it as a dict whose
domain covers `keys_in_order`). -/
def build_entries_for_keys (keys_in_order : List Bytes)
    (values_by_key : Bytes → List Bytes) (pos : Nat) : List Bytes :=
  match keys_in_order with
  | [] => []
  | k :: ks =>
    (values_by_key k).map (fun v => build_entry k v [] pos) ++
      build_entries_for_keys ks values_by_key pos

/-- Index of the first dictionary with the given name:
`target_indices[0]` for `target_indices = [i for i, d in ... if d.name == name]`. -/
def firstMatchIdx (name : Bytes) : List DictionaryData → Option Nat
  | [] => none
  | d :: ds =>
    if d.name = name then some 0 else (firstMatchIdx name ds).map (· + 1)

/-- Total number of new entries, `sum(len(values_by_key[key]) for key in
keys_in_order)`. -/
def sumEntryCounts (keys_in_order : List Bytes)
    (values_by_key : Bytes → List Bytes) : Nat :=
  match keys_in_order with
  | [] => 0
  | k :: ks => (values_by_key k).length + sumEntryCounts ks values_by_key

/-- The function `update_dictionary` of the source. The update content is
passed as `dictionary_name`/`pos` (from the config) and
`keys_in_order`/`values_by_key` (the result of `build_values_by_key`, a pure
function of config and date, out of scope here); `target_keys =
set(keys_in_order)` is modelled by list membership. `draws` feeds
`generate_dictionary_id`; `.ok none` models the unreachable case of an
id-generation stream on which that loop never returns, and the
`.error .invalidValue` fallback covers the impossible out-of-range index
from `firstMatchIdx`. -/
def update_dictionary (raw : Bytes) (dictionary_name : Bytes) (pos : Nat)
    (keys_in_order : List Bytes) (values_by_key : Bytes → List Bytes)
    (draws : List Nat) : Except PErr (Option (Bytes × Stats)) :=
  match parse_storage raw with
  | .error e => .error e
  | .ok (dictionaries, unknown_fields) =>
    let new_entries := build_entries_for_keys keys_in_order values_by_key pos
    match firstMatchIdx dictionary_name dictionaries with
    | none =>
      let existing_ids := dictionaries.map (·.dict_id)
      match generate_dictionary_id draws existing_ids with
      | none => .ok none
      | some new_id =>
        let dicts' := dictionaries ++
          [⟨new_id, dictionary_name, new_entries, []⟩]
        match build_storage dicts' unknown_fields with
        | .error e => .error e
        | .ok new_raw =>
          .ok (some (new_raw,
            ⟨dictionary_name, new_id, true, keys_in_order.length,
              sumEntryCounts keys_in_order values_by_key⟩))
    | some i =>
      match dictionaries[i]? with
      | none => .error .invalidValue
      | some target =>
        match filter_entries_by_key target.entries_raw keys_in_order with
        | .error e => .error e
        | .ok kept =>
          let dicts' := dictionaries.set i
            { target with entries_raw := kept ++ new_entries }
          match build_storage dicts' unknown_fields with
          | .error e => .error e
          | .ok new_raw =>
            .ok (some (new_raw,
              ⟨dictionary_name, target.dict_id, false, keys_in_order.length,
                sumEntryCounts keys_in_order values_by_key⟩))

/-- Bound making a value decodable again: the decoder caps varints (hence
also length prefixes) at `2 ^ 77`. -/
def valueBound : FieldValue → Prop
  | .nat n => n < 2 ^ 77
  | .bytes bs => bs.length < 2 ^ 77

instance : DecidablePred valueBound := fun v =>
  match v with
  | .nat _ => Nat.decLt _ _
  | .bytes _ => Nat.decLt _ _

/-- The value kind matches the wire type as `parse_fields` guarantees:
VARINT fields carry integers, all others carry bytes. -/
def kindOK (f : Field) : Prop :=
  match f.2.2 with
  | .nat _ => f.2.1 = 0
  | .bytes _ => f.2.1 ≠ 0

/-- Re-encodability of a field. -/
def encOK (f : Field) : Prop :=
  ∃ b, encode_raw_field f.1 f.2.1 f.2.2 = .ok b

/-- Sum of the per-field encoded lengths. -/
def encFieldLen (f : Field) : Nat :=
  match encode_raw_field f.1 f.2.1 f.2.2 with
  | .ok b => b.length
  | .error _ => 0

/-- Values of all ID fields (`fn = 1`, VARINT), in order. -/
def idValues : List Field → List Nat
  | [] => []
  | (fn, wt, v) :: fs =>
    if fn = 1 ∧ wt = 0 then
      (match v with | FieldValue.nat n => [n] | FieldValue.bytes _ => []) ++
        idValues fs
    else idValues fs

/-- Values of all NAME fields (`fn = 3`, LENGTH_DELIMITED), in order. -/
def nameValues : List Field → List Bytes
  | [] => []
  | (fn, wt, v) :: fs =>
    if ¬ (fn = 1 ∧ wt = 0) ∧ fn = 3 ∧ wt = 2 then
      (match v with | FieldValue.nat _ => [] | FieldValue.bytes bs => [bs]) ++
        nameValues fs
    else nameValues fs

/-- Values of all ENTRY fields (`fn = 4`, LENGTH_DELIMITED), in order. -/
def entryValues : List Field → List Bytes
  | [] => []
  | (fn, wt, v) :: fs =>
    if ¬ (fn = 1 ∧ wt = 0) ∧ ¬ (fn = 3 ∧ wt = 2) ∧ fn = 4 ∧ wt = 2 then
      (match v with | FieldValue.nat _ => [] | FieldValue.bytes bs => [bs]) ++
        entryValues fs
    else entryValues fs

/-- Fields `parse_dictionary` does not recognize. -/
def isDictUnknown (f : Field) : Bool :=
  !(decide (f.1 = 1 ∧ f.2.1 = 0)) && !(decide (f.1 = 3 ∧ f.2.1 = 2)) &&
    !(decide (f.1 = 4 ∧ f.2.1 = 2))

/-- Last element of a list, defaulting to a prior `Option` state; models
last-wins assignment folding. -/
def lastD {α : Type} : List α → Option α → Option α
  | [], d => d
  | x :: xs, _ => lastD xs (some x)

/-- Payloads of all Dictionary fields (`fn = 2`, LENGTH_DELIMITED), in
order. -/
def dictPayloads : List Field → List Bytes
  | [] => []
  | (fn, wt, v) :: fs =>
    if fn = 2 ∧ wt = 2 then
      (match v with | FieldValue.nat _ => [] | FieldValue.bytes bs => [bs]) ++
        dictPayloads fs
    else dictPayloads fs

/-- Fields `parse_storage` does not recognize. -/
def isStorageUnknown (f : Field) : Bool := !(decide (f.1 = 2 ∧ f.2.1 = 2))

/-- Parsing each dictionary payload in order, first failure wins. -/
def parseDicts : List Bytes → Except PErr (List DictionaryData)
  | [] => .ok []
  | bs :: rest =>
    match parse_dictionary bs with
    | .error e => .error e
    | .ok d =>
      match parseDicts rest with
      | .error e => .error e
      | .ok ds => .ok (d :: ds)

/-- The field sequence emitted by `build_dictionary`. -/
def dictFieldList (d : DictionaryData) : List Field :=
  (1, 0, FieldValue.nat d.dict_id) :: (3, 2, FieldValue.bytes d.name) ::
    ((d.entries_raw.map fun e => (4, 2, FieldValue.bytes e)) ++
      d.unknown_fields)

/-- Well-formedness of a dictionary value sufficient to rebuild and re-parse
it: bounded id and name, valid UTF-8 name, bounded entries, and unknown
fields that are bounded, re-encodable and unrecognized. -/
def DictOK (d : DictionaryData) : Prop :=
  d.dict_id < 2 ^ 77 ∧ utf8Valid d.name = true ∧ d.name.length < 2 ^ 77 ∧
    (∀ e ∈ d.entries_raw, e.length < 2 ^ 77) ∧
    (∀ f ∈ d.unknown_fields,
      f.1 < 2 ^ 74 ∧ valueBound f.2.2 ∧ encOK f ∧ isDictUnknown f = true)

/-- Well-formedness of a parsed storage value sufficient to rebuild and
re-parse it. -/
def StorageOK (ds : List DictionaryData) (ufs : List Field) : Prop :=
  (∀ d ∈ ds, DictOK d ∧
    ∀ pb, build_dictionary d = .ok pb → pb.length < 2 ^ 77) ∧
  (∀ f ∈ ufs, f.1 < 2 ^ 74 ∧ valueBound f.2.2 ∧ encOK f ∧
    isStorageUnknown f = true)

def isIdField (f : Field) : Bool := decide (f.1 = 1 ∧ f.2.1 = 0)

def isNameField (f : Field) : Bool := decide (f.1 = 3 ∧ f.2.1 = 2)

def isEntryField (f : Field) : Bool := decide (f.1 = 4 ∧ f.2.1 = 2)

/-- Keep decision of `filter_entries_by_key` for one entry whose blob
decodes: keep when the key is absent or invalid (`none`) or not in the
removal set. -/
def entryKeyKeep (keys_to_remove : List Bytes) (e : Bytes) : Bool :=
  match parse_entry_key e with
  | .ok none => true
  | .ok (some k) => !(keys_to_remove.contains k)
  | .error _ => false

/-! ### Arithmetic helpers for the base-128 encoding -/

/-- Disjoint bitwise or is addition: bits below `s` do not overlap a value
shifted left by `s`. -/
theorem lor_shiftLeft_eq_add {a c s : Nat} (h : a < 2 ^ s) :
    a ||| (c <<< s) = a + c * 2 ^ s := by
  apply Nat.eq_of_testBit_eq
  intro i
  rw [Nat.testBit_or, Nat.testBit_shiftLeft]
  have h2 : a + c * 2 ^ s = 2 ^ s * c + a := by ring
  rw [h2, Nat.testBit_mul_pow_two_add c h i]
  by_cases hi : i < s
  · simp [hi, Nat.not_le.mpr hi]
  · have hge : s ≤ i := Nat.not_lt.mp hi
    have ha : a.testBit i = false :=
      Nat.testBit_lt_two_pow
        (Nat.lt_of_lt_of_le h (Nat.pow_le_pow_right (by norm_num) hge))
    simp [hi, hge, ha]

theorem mod128_lor_128 (v : Nat) : v % 128 ||| 128 = v % 128 + 128 := by
  have h : v % 128 < 2 ^ 7 := by
    have h1 : v % 128 < 128 := Nat.mod_lt v (by norm_num)
    norm_num
    omega
  have h2 := @lor_shiftLeft_eq_add (v % 128) 1 7 h
  rw [Nat.shiftLeft_eq] at h2
  norm_num at h2
  exact h2

/-- The tag of `encode_tag` as plain arithmetic. -/
theorem tag_eq_add {fn wt : Nat} (h : wt < 8) :
    (fn <<< 3) ||| wt = 8 * fn + wt := by
  have h8 : wt < 2 ^ 3 := by norm_num; omega
  calc (fn <<< 3) ||| wt = wt ||| (fn <<< 3) := Nat.lor_comm _ _
    _ = wt + fn * 2 ^ 3 := lor_shiftLeft_eq_add h8
    _ = 8 * fn + wt := by ring

theorem tag_shiftRight {fn wt : Nat} (h : wt < 8) : (8 * fn + wt) >>> 3 = fn := by
  rw [Nat.shiftRight_eq_div_pow]
  have h1 : 8 * fn + wt = wt + fn * 8 := by ring
  have h2 : (2:Nat) ^ 3 = 8 := by norm_num
  rw [h1, h2, Nat.add_mul_div_right _ _ (by norm_num : (0:Nat) < 8),
    Nat.div_eq_of_lt h]
  omega

theorem tag_and_seven {fn wt : Nat} (h : wt < 8) : (8 * fn + wt) &&& 7 = wt := by
  have h7 : (7 : Nat) = 2 ^ 3 - 1 := by norm_num
  rw [h7, Nat.and_pow_two_sub_one_eq_mod]
  have h1 : 8 * fn + wt = wt + fn * 8 := by ring
  have h2 : (2:Nat) ^ 3 = 8 := by norm_num
  rw [h1, h2, Nat.add_mul_mod_self_right, Nat.mod_eq_of_lt h]

/-! ### Properties of `encode_varint` -/

theorem encode_varint_aux_congr :
    ∀ f1 f2 v, v ≤ f1 → v ≤ f2 →
      encode_varint_aux f1 v = encode_varint_aux f2 v := by
  intro f1
  induction f1 with
  | zero =>
    intro f2 v hv1 _
    have hv : v = 0 := by omega
    subst hv
    cases f2 <;> simp [encode_varint_aux]
  | succ f ih =>
    intro f2 v hv1 hv2
    cases f2 with
    | zero =>
      have hv : v = 0 := by omega
      subst hv
      simp [encode_varint_aux]
    | succ g =>
      by_cases hd : v / 128 = 0
      · simp [encode_varint_aux, hd]
      · have hv : 128 ≤ v := by
          rcases Nat.lt_or_ge v 128 with hlt | hge
          · exact absurd (Nat.div_eq_of_lt hlt) hd
          · exact hge
        have hlt : v / 128 < v := Nat.div_lt_self (by omega) (by norm_num)
        simp only [encode_varint_aux, if_neg hd]
        rw [ih g (v / 128) (by omega) (by omega)]

/-- Unfolding equation of `encode_varint`, matching the source's loop. -/
theorem encode_varint_eq (v : Nat) :
    encode_varint v =
      if v / 128 = 0 then [v % 128]
      else (v % 128 ||| 128) :: encode_varint (v / 128) := by
  show encode_varint_aux v v = _
  cases v with
  | zero => simp [encode_varint_aux]
  | succ n =>
    simp only [encode_varint_aux]
    by_cases hd : (n + 1) / 128 = 0
    · simp [hd]
    · have hlt : (n + 1) / 128 < n + 1 := Nat.div_lt_self (by omega) (by norm_num)
      simp only [if_neg hd]
      rw [encode_varint_aux_congr n ((n+1)/128) ((n+1)/128) (by omega) le_rfl]
      rfl

theorem encode_varint_of_lt {v : Nat} (h : v < 128) : encode_varint v = [v] := by
  rw [encode_varint_eq, if_pos (Nat.div_eq_of_lt h), Nat.mod_eq_of_lt h]

theorem encode_varint_of_ge {v : Nat} (h : 128 ≤ v) :
    encode_varint v = (v % 128 + 128) :: encode_varint (v / 128) := by
  have h1 : 128 / 128 ≤ v / 128 := Nat.div_le_div_right h
  norm_num at h1
  rw [encode_varint_eq, if_neg (by omega), mod128_lor_128]

theorem encode_varint_ne_nil (v : Nat) : encode_varint v ≠ [] := by
  rw [encode_varint_eq]
  by_cases hd : v / 128 = 0 <;> simp [hd]

/-- Length bound: a value below `2 ^ (7 * (n + 1))` encodes in at most
`n + 1` bytes. -/
theorem encode_varint_length_le :
    ∀ n v, v < 2 ^ (7 * (n + 1)) → (encode_varint v).length ≤ n + 1 := by
  intro n
  induction n with
  | zero =>
    intro v hv
    norm_num at hv
    rw [encode_varint_of_lt hv]
    simp
  | succ m ih =>
    intro v hv
    by_cases h : v < 128
    · rw [encode_varint_of_lt h]; simp
    · rw [encode_varint_of_ge (by omega)]
      simp only [List.length_cons]
      have hdiv : v / 128 < 2 ^ (7 * (m + 1)) := by
        rw [Nat.div_lt_iff_lt_mul (by norm_num : (0:Nat) < 128)]
        have he : 7 * (m + 1 + 1) = 7 * (m + 1) + 7 := by ring
        rw [he, pow_add] at hv
        norm_num at hv
        exact hv
      exact Nat.succ_le_succ (ih (v / 128) hdiv)

/-! ### Properties of `decode_varint` -/

/-- Appending bytes after a successfully decoded varint does not change the
decode; the extra bytes land in the remainder. -/
theorem decode_varint_aux_append :
    ∀ (data : List Nat) (s a v : Nat) (rest ext : List Nat),
      decode_varint_aux s a data = .ok (v, rest) →
      decode_varint_aux s a (data ++ ext) = .ok (v, rest ++ ext) := by
  intro data
  induction data with
  | nil => intro s a v rest ext h; simp [decode_varint_aux] at h
  | cons b bs ih =>
    intro s a v rest ext h
    simp only [decode_varint_aux, List.cons_append] at h ⊢
    by_cases hb : b < 128
    · rw [if_pos hb] at h ⊢
      cases h
      simp
    · rw [if_neg hb] at h ⊢
      by_cases hs : s + 7 > 70
      · rw [if_pos hs] at h; cases h
      · rw [if_neg hs] at h ⊢
        exact ih _ _ _ _ _ h

theorem decode_varint_append {data : List Nat} {v : Nat} {rest ext : List Nat}
    (h : decode_varint data = .ok (v, rest)) :
    decode_varint (data ++ ext) = .ok (v, rest ++ ext) :=
  decode_varint_aux_append data 0 0 v rest ext h

/-- Characterization of a successful varint decode: some `k ≥ 1` bytes are
consumed, at most eleven of them, and the value is bounded by the consumed
bit width. -/
theorem decode_varint_aux_ok :
    ∀ (data : List Nat) (s a v : Nat) (rest : List Nat),
      decode_varint_aux s a data = .ok (v, rest) → a < 2 ^ s → s ≤ 70 →
      ∃ k, 1 ≤ k ∧ k ≤ data.length ∧ rest = data.drop k ∧
        s + 7 * (k - 1) ≤ 70 ∧ v < 2 ^ (s + 7 * k) := by
  intro data
  induction data with
  | nil => intro s a v rest h; simp [decode_varint_aux] at h
  | cons b bs ih =>
    intro s a v rest h ha hs
    have hacc : a ||| ((b % 128) <<< s) < 2 ^ (s + 7) := by
      rw [lor_shiftLeft_eq_add ha]
      have hb : b % 128 < 128 := Nat.mod_lt b (by norm_num)
      have h128 : (2:Nat) ^ (s + 7) = 2 ^ s * 128 := by
        rw [pow_add]; norm_num
      have : a + b % 128 * 2 ^ s ≤ (2 ^ s - 1) + 127 * 2 ^ s := by
        have h2 : b % 128 * 2 ^ s ≤ 127 * 2 ^ s :=
          Nat.mul_le_mul_right _ (by omega)
        omega
      have hp : (1:Nat) ≤ 2 ^ s := Nat.one_le_two_pow
      omega
    simp only [decode_varint_aux] at h
    by_cases hb : b < 128
    · rw [if_pos hb] at h
      refine ⟨1, le_rfl, by simp, ?_, by omega, ?_⟩
      · cases h; simp
      · cases h
        have : s + 7 * 1 = s + 7 := by ring
        rw [this]
        exact hacc
    · rw [if_neg hb] at h
      by_cases hsh : s + 7 > 70
      · rw [if_pos hsh] at h; cases h
      · rw [if_neg hsh] at h
        obtain ⟨k, hk1, hklen, hrest, hksh, hkv⟩ :=
          ih (s + 7) _ v rest h hacc (by omega)
        refine ⟨k + 1, by omega, by simp; omega, by simpa using hrest, ?_, ?_⟩
        · omega
        · have he : s + 7 * (k + 1) = s + 7 + 7 * k := by ring
          rw [he]
          exact hkv

/-- Specialization to `decode_varint`: consumed-byte count, the eleven-byte
cap, the `2 ^ 77` value bound, and minimality of the re-encoding. -/
theorem decode_varint_ok {data : List Nat} {v : Nat} {rest : List Nat}
    (h : decode_varint data = .ok (v, rest)) :
    ∃ k, 1 ≤ k ∧ k ≤ data.length ∧ k ≤ 11 ∧ rest = data.drop k ∧
      v < 2 ^ (7 * k) ∧ (encode_varint v).length ≤ k ∧ v < 2 ^ 77 := by
  obtain ⟨k, hk1, hklen, hrest, hksh, hkv⟩ :=
    decode_varint_aux_ok data 0 0 v rest h (by norm_num) (by norm_num)
  rw [Nat.zero_add] at hkv
  have hk11 : k ≤ 11 := by omega
  have hv77 : v < 2 ^ 77 :=
    Nat.lt_of_lt_of_le hkv (Nat.pow_le_pow_right (by norm_num) (by omega))
  have hlen : (encode_varint v).length ≤ k := by
    have := encode_varint_length_le (k - 1) v
      (by rw [show 7 * (k - 1 + 1) = 7 * k from by omega]; exact hkv)
    omega
  exact ⟨k, hk1, hklen, hk11, hrest, hkv, hlen, hv77⟩

/-- Length of the remainder strictly decreases on a successful decode. -/
theorem decode_varint_rest_lt {data : List Nat} {v : Nat} {rest : List Nat}
    (h : decode_varint data = .ok (v, rest)) : rest.length < data.length := by
  obtain ⟨k, hk1, hklen, _, hrest, _⟩ := decode_varint_ok h
  subst hrest
  simp [List.length_drop]
  omega

/-- Decoding an encoded varint within the shift cap returns the value and
the following bytes. -/
theorem decode_encode_varint_aux :
    ∀ (v s a : Nat) (rest : List Nat), a < 2 ^ s →
      s + 7 * ((encode_varint v).length - 1) ≤ 70 →
      decode_varint_aux s a (encode_varint v ++ rest) =
        .ok (a + v * 2 ^ s, rest) := by
  intro v
  induction v using Nat.strong_induction_on with
  | _ v ih =>
    intro s a rest ha hs
    by_cases hv : v < 128
    · rw [encode_varint_of_lt hv]
      simp only [List.cons_append, List.nil_append, decode_varint_aux,
        if_pos hv]
      rw [Nat.mod_eq_of_lt hv, lor_shiftLeft_eq_add ha]
      rfl
    · have hge : 128 ≤ v := by omega
      have hlen : encode_varint v = (v % 128 + 128) :: encode_varint (v / 128) :=
        encode_varint_of_ge hge
      rw [hlen] at hs ⊢
      simp only [List.length_cons] at hs
      have hlen1 : 1 ≤ (encode_varint (v / 128)).length := by
        cases he : encode_varint (v / 128) with
        | nil => exact absurd he (encode_varint_ne_nil _)
        | cons x xs => simp
      simp only [List.cons_append, decode_varint_aux]
      rw [if_neg (by omega), if_neg (by omega : ¬ s + 7 > 70)]
      have hmod : (v % 128 + 128) % 128 = v % 128 := by omega
      rw [hmod]
      have hacc : a ||| (v % 128) <<< s = a + v % 128 * 2 ^ s :=
        lor_shiftLeft_eq_add ha
      rw [hacc]
      have haccb : a + v % 128 * 2 ^ s < 2 ^ (s + 7) := by
        have hb : v % 128 < 128 := Nat.mod_lt v (by norm_num)
        have h128 : (2:Nat) ^ (s + 7) = 2 ^ s * 128 := by rw [pow_add]; norm_num
        have h2 : v % 128 * 2 ^ s ≤ 127 * 2 ^ s :=
          Nat.mul_le_mul_right _ (by omega)
        have hp : (1:Nat) ≤ 2 ^ s := Nat.one_le_two_pow
        omega

      have hrec := ih (v / 128) (Nat.div_lt_self (by omega) (by norm_num)) (s + 7)
        (a + v % 128 * 2 ^ s) rest haccb (by omega)
      have hval : a + v % 128 * 2 ^ s + v / 128 * 2 ^ (s + 7) =
          a + v * 2 ^ s := by
        have hdm : v = 128 * (v / 128) + v % 128 := (Nat.div_add_mod v 128).symm
        have h128 : (2:Nat) ^ (s + 7) = 2 ^ s * 128 := by rw [pow_add]; norm_num
        calc a + v % 128 * 2 ^ s + v / 128 * 2 ^ (s + 7)
            = a + v % 128 * 2 ^ s + v / 128 * (2 ^ s * 128) := by rw [h128]
          _ = a + (128 * (v / 128) + v % 128) * 2 ^ s := by ring
          _ = a + v * 2 ^ s := by rw [← hdm]
      rw [hval] at hrec
      simpa using hrec

/-- Round trip of a single varint below the decoder's `2 ^ 77` cap. -/
theorem decode_encode_varint {v : Nat} (hv : v < 2 ^ 77) (rest : List Nat) :
    decode_varint (encode_varint v ++ rest) = .ok (v, rest) := by
  have hlen : (encode_varint v).length ≤ 11 :=
    encode_varint_length_le 10 v (by norm_num at hv ⊢; exact hv)
  have h := decode_encode_varint_aux v 0 0 rest (by norm_num) (by omega)
  simpa using h

/-! ### Fuel irrelevance and unfolding lemmas for `parse_fields` -/

theorem parse_fields_aux_congr :
    ∀ f1 f2 (data : List Nat), data.length ≤ f1 → data.length ≤ f2 →
      parse_fields_aux f1 data = parse_fields_aux f2 data := by
  intro f1
  induction f1 with
  | zero =>
    intro f2 data h1 _
    have hd : data = [] := List.eq_nil_of_length_eq_zero (by omega)
    subst hd
    cases f2 <;> rfl
  | succ f ih =>
    intro f2 data h1 h2
    cases data with
    | nil => cases f2 <;> rfl
    | cons b bs =>
      cases f2 with
      | zero => simp at h2
      | succ g =>
        simp only [List.length_cons] at h1 h2
        rcases hdec : decode_varint (b :: bs) with e | ⟨tag, r1⟩
        · simp only [parse_fields_aux, hdec]
        · have hr1 : r1.length ≤ bs.length := by
            have := decode_varint_rest_lt hdec
            simp at this
            omega
          simp only [parse_fields_aux, hdec]
          by_cases h0 : tag &&& 7 = 0
          · rw [if_pos h0, if_pos h0]
            rcases hdec2 : decode_varint r1 with e | ⟨v, r2⟩
            · rfl
            · have hr2 : r2.length < r1.length := decode_varint_rest_lt hdec2
              simp only [hdec2]
              rw [ih g r2 (by omega) (by omega)]
          · rw [if_neg h0, if_neg h0]
            by_cases h1w : tag &&& 7 = 1
            · rw [if_pos h1w, if_pos h1w]
              by_cases hlen : r1.length < 8
              · rw [if_pos hlen, if_pos hlen]
              · rw [if_neg hlen, if_neg hlen]
                rw [ih g (r1.drop 8) (by simp; omega) (by simp; omega)]
            · rw [if_neg h1w, if_neg h1w]
              by_cases h2w : tag &&& 7 = 2
              · rw [if_pos h2w, if_pos h2w]
                rcases hdec2 : decode_varint r1 with e | ⟨len, r2⟩
                · rfl
                · have hr2 : r2.length < r1.length := decode_varint_rest_lt hdec2
                  simp only [hdec2]
                  by_cases hlen : r2.length < len
                  · rw [if_pos hlen, if_pos hlen]
                  · rw [if_neg hlen, if_neg hlen]
                    rw [ih g (r2.drop len) (by simp; omega) (by simp; omega)]
              · rw [if_neg h2w, if_neg h2w]
                by_cases h5w : tag &&& 7 = 5
                · rw [if_pos h5w, if_pos h5w]
                  by_cases hlen : r1.length < 4
                  · rw [if_pos hlen, if_pos hlen]
                  · rw [if_neg hlen, if_neg hlen]
                    rw [ih g (r1.drop 4) (by simp; omega) (by simp; omega)]
                · rw [if_neg h5w, if_neg h5w]

theorem parse_fields_aux_eq {f : Nat} {data : List Nat} (h : data.length ≤ f) :
    parse_fields_aux f data = parse_fields data :=
  parse_fields_aux_congr f data.length data h le_rfl

theorem parse_fields_nil : parse_fields [] = .ok [] := rfl

theorem decode_varint_nil_ne_ok {tag : Nat} {r : List Nat} :
    decode_varint [] ≠ .ok (tag, r) := by
  simp [decode_varint, decode_varint_aux]

/-- Buffers on which `decode_varint` succeeds are nonempty, in head-tail
form. -/
theorem exists_cons_of_decode {data : List Nat} {tag : Nat} {r1 : List Nat}
    (h : decode_varint data = .ok (tag, r1)) :
    ∃ b bs, data = b :: bs ∧ r1.length ≤ bs.length := by
  cases data with
  | nil => exact absurd h decode_varint_nil_ne_ok
  | cons b bs =>
    refine ⟨b, bs, rfl, ?_⟩
    have := decode_varint_rest_lt h
    simp at this
    omega

theorem parse_fields_tag_error {data : List Nat} {e : PErr}
    (hne : data ≠ []) (h : decode_varint data = .error e) :
    parse_fields data = .error e := by
  obtain ⟨b, bs, rfl⟩ := List.exists_cons_of_ne_nil hne
  show parse_fields_aux (b :: bs).length (b :: bs) = _
  simp only [List.length_cons, parse_fields_aux, h]

theorem parse_fields_w0 {data r1 r2 : List Nat} {tag v : Nat}
    (h1 : decode_varint data = .ok (tag, r1)) (hwt : tag &&& 7 = 0)
    (h2 : decode_varint r1 = .ok (v, r2)) :
    parse_fields data = (parse_fields r2).map
      (fun fs => (tag >>> 3, tag &&& 7, FieldValue.nat v) :: fs) := by
  obtain ⟨b, bs, rfl, hr1⟩ := exists_cons_of_decode h1
  have hr2 : r2.length < r1.length := decode_varint_rest_lt h2
  show parse_fields_aux (b :: bs).length (b :: bs) = _
  simp only [List.length_cons, parse_fields_aux, h1]
  rw [if_pos hwt]
  simp only [h2]
  rw [parse_fields_aux_eq (by omega)]
  cases parse_fields r2 <;> rfl

theorem parse_fields_w0_error {data r1 : List Nat} {tag : Nat} {e : PErr}
    (h1 : decode_varint data = .ok (tag, r1)) (hwt : tag &&& 7 = 0)
    (h2 : decode_varint r1 = .error e) :
    parse_fields data = .error e := by
  obtain ⟨b, bs, rfl, hr1⟩ := exists_cons_of_decode h1
  show parse_fields_aux (b :: bs).length (b :: bs) = _
  simp only [List.length_cons, parse_fields_aux, h1]
  rw [if_pos hwt]
  simp only [h2]

theorem parse_fields_w1 {data r1 : List Nat} {tag : Nat}
    (h1 : decode_varint data = .ok (tag, r1)) (hwt : tag &&& 7 = 1)
    (hlen : 8 ≤ r1.length) :
    parse_fields data = (parse_fields (r1.drop 8)).map
      (fun fs => (tag >>> 3, tag &&& 7, FieldValue.bytes (r1.take 8)) :: fs) := by
  obtain ⟨b, bs, rfl, hr1⟩ := exists_cons_of_decode h1
  show parse_fields_aux (b :: bs).length (b :: bs) = _
  simp only [List.length_cons, parse_fields_aux, h1]
  rw [if_neg (show ¬ tag &&& 7 = 0 by omega), if_pos hwt,
    if_neg (show ¬ r1.length < 8 by omega)]
  rw [parse_fields_aux_eq (by simp; omega)]
  cases parse_fields (r1.drop 8) <;> rfl

theorem parse_fields_w1_trunc {data r1 : List Nat} {tag : Nat}
    (h1 : decode_varint data = .ok (tag, r1)) (hwt : tag &&& 7 = 1)
    (hlen : r1.length < 8) :
    parse_fields data = .error .truncatedInput := by
  obtain ⟨b, bs, rfl, hr1⟩ := exists_cons_of_decode h1
  show parse_fields_aux (b :: bs).length (b :: bs) = _
  simp only [List.length_cons, parse_fields_aux, h1]
  rw [if_neg (show ¬ tag &&& 7 = 0 by omega), if_pos hwt, if_pos hlen]

theorem parse_fields_w2 {data r1 r2 : List Nat} {tag len : Nat}
    (h1 : decode_varint data = .ok (tag, r1)) (hwt : tag &&& 7 = 2)
    (h2 : decode_varint r1 = .ok (len, r2)) (hlen : len ≤ r2.length) :
    parse_fields data = (parse_fields (r2.drop len)).map
      (fun fs => (tag >>> 3, tag &&& 7, FieldValue.bytes (r2.take len)) :: fs) := by
  obtain ⟨b, bs, rfl, hr1⟩ := exists_cons_of_decode h1
  have hr2 : r2.length < r1.length := decode_varint_rest_lt h2
  show parse_fields_aux (b :: bs).length (b :: bs) = _
  simp only [List.length_cons, parse_fields_aux, h1]
  rw [if_neg (show ¬ tag &&& 7 = 0 by omega),
    if_neg (show ¬ tag &&& 7 = 1 by omega), if_pos hwt]
  simp only [h2]
  rw [if_neg (show ¬ r2.length < len by omega)]
  rw [parse_fields_aux_eq (by simp; omega)]
  cases parse_fields (r2.drop len) <;> rfl

theorem parse_fields_w2_error {data r1 : List Nat} {tag : Nat} {e : PErr}
    (h1 : decode_varint data = .ok (tag, r1)) (hwt : tag &&& 7 = 2)
    (h2 : decode_varint r1 = .error e) :
    parse_fields data = .error e := by
  obtain ⟨b, bs, rfl, hr1⟩ := exists_cons_of_decode h1
  show parse_fields_aux (b :: bs).length (b :: bs) = _
  simp only [List.length_cons, parse_fields_aux, h1]
  rw [if_neg (show ¬ tag &&& 7 = 0 by omega),
    if_neg (show ¬ tag &&& 7 = 1 by omega), if_pos hwt]
  simp only [h2]

theorem parse_fields_w2_trunc {data r1 r2 : List Nat} {tag len : Nat}
    (h1 : decode_varint data = .ok (tag, r1)) (hwt : tag &&& 7 = 2)
    (h2 : decode_varint r1 = .ok (len, r2)) (hlen : r2.length < len) :
    parse_fields data = .error .truncatedInput := by
  obtain ⟨b, bs, rfl, hr1⟩ := exists_cons_of_decode h1
  show parse_fields_aux (b :: bs).length (b :: bs) = _
  simp only [List.length_cons, parse_fields_aux, h1]
  rw [if_neg (show ¬ tag &&& 7 = 0 by omega),
    if_neg (show ¬ tag &&& 7 = 1 by omega), if_pos hwt]
  simp only [h2]
  rw [if_pos hlen]

theorem parse_fields_w5 {data r1 : List Nat} {tag : Nat}
    (h1 : decode_varint data = .ok (tag, r1)) (hwt : tag &&& 7 = 5)
    (hlen : 4 ≤ r1.length) :
    parse_fields data = (parse_fields (r1.drop 4)).map
      (fun fs => (tag >>> 3, tag &&& 7, FieldValue.bytes (r1.take 4)) :: fs) := by
  obtain ⟨b, bs, rfl, hr1⟩ := exists_cons_of_decode h1
  show parse_fields_aux (b :: bs).length (b :: bs) = _
  simp only [List.length_cons, parse_fields_aux, h1]
  rw [if_neg (show ¬ tag &&& 7 = 0 by omega),
    if_neg (show ¬ tag &&& 7 = 1 by omega),
    if_neg (show ¬ tag &&& 7 = 2 by omega), if_pos hwt,
    if_neg (show ¬ r1.length < 4 by omega)]
  rw [parse_fields_aux_eq (by simp; omega)]
  cases parse_fields (r1.drop 4) <;> rfl

theorem parse_fields_w5_trunc {data r1 : List Nat} {tag : Nat}
    (h1 : decode_varint data = .ok (tag, r1)) (hwt : tag &&& 7 = 5)
    (hlen : r1.length < 4) :
    parse_fields data = .error .truncatedInput := by
  obtain ⟨b, bs, rfl, hr1⟩ := exists_cons_of_decode h1
  show parse_fields_aux (b :: bs).length (b :: bs) = _
  simp only [List.length_cons, parse_fields_aux, h1]
  rw [if_neg (show ¬ tag &&& 7 = 0 by omega),
    if_neg (show ¬ tag &&& 7 = 1 by omega),
    if_neg (show ¬ tag &&& 7 = 2 by omega), if_pos hwt, if_pos hlen]

theorem parse_fields_wbad {data r1 : List Nat} {tag : Nat}
    (h1 : decode_varint data = .ok (tag, r1)) (hw0 : tag &&& 7 ≠ 0)
    (hw1 : tag &&& 7 ≠ 1) (hw2 : tag &&& 7 ≠ 2) (hw5 : tag &&& 7 ≠ 5) :
    parse_fields data = .error .unsupportedWireType := by
  obtain ⟨b, bs, rfl, hr1⟩ := exists_cons_of_decode h1
  show parse_fields_aux (b :: bs).length (b :: bs) = _
  simp only [List.length_cons, parse_fields_aux, h1]
  rw [if_neg hw0, if_neg hw1, if_neg hw2, if_neg hw5]

theorem take_append_of_le {α : Type} {n : Nat} {l1 l2 : List α}
    (h : n ≤ l1.length) : (l1 ++ l2).take n = l1.take n := by
  rw [List.take_append_eq_append_take, Nat.sub_eq_zero_of_le h]
  simp

theorem drop_append_of_le {α : Type} {n : Nat} {l1 l2 : List α}
    (h : n ≤ l1.length) : (l1 ++ l2).drop n = l1.drop n ++ l2 := by
  rw [List.drop_append_eq_append_drop, Nat.sub_eq_zero_of_le h]
  simp

/-- Parsing a buffer that extends a fully parsed prefix parses the prefix's
fields and continues on the extension. -/
theorem parse_fields_append :
    ∀ (n : Nat) (a : List Nat), a.length ≤ n → ∀ (fs : List Field) (b : List Nat),
      parse_fields a = .ok fs →
      parse_fields (a ++ b) = (parse_fields b).map (fun gs => fs ++ gs) := by
  intro n
  induction n with
  | zero =>
    intro a ha fs b h
    have : a = [] := List.eq_nil_of_length_eq_zero (by omega)
    subst this
    rw [parse_fields_nil] at h
    cases h
    simp only [List.nil_append]
    cases parse_fields b <;> rfl
  | succ n ih =>
    intro a ha fs b h
    cases a with
    | nil =>
      rw [parse_fields_nil] at h
      cases h
      simp only [List.nil_append]
      cases parse_fields b <;> rfl
    | cons b0 bs0 =>
      rcases hdec : decode_varint (b0 :: bs0) with e | ⟨tag, r1⟩
      · rw [parse_fields_tag_error (by simp) hdec] at h
        cases h
      · have hr1 : r1.length ≤ bs0.length := by
          have := decode_varint_rest_lt hdec
          simp at this
          omega
        have hdecapp : decode_varint (b0 :: (bs0 ++ b)) = .ok (tag, r1 ++ b) := by
          have h' := @decode_varint_append (b0 :: bs0) tag r1 b hdec
          simpa using h'
        simp only [List.cons_append]
        by_cases h0 : tag &&& 7 = 0
        · rcases hdec2 : decode_varint r1 with e | ⟨v, r2⟩
          · rw [parse_fields_w0_error hdec h0 hdec2] at h
            cases h
          · have hr2 : r2.length < r1.length := decode_varint_rest_lt hdec2
            rw [parse_fields_w0 hdec h0 hdec2] at h
            rcases hps : parse_fields r2 with e | gs
            · rw [hps] at h; cases h
            · rw [hps] at h
              cases h
              have hrec := ih r2 (by simp at ha; omega) gs b hps
              rw [parse_fields_w0 hdecapp h0 (decode_varint_append hdec2),
                hrec]
              cases parse_fields b <;> rfl
        · by_cases h1 : tag &&& 7 = 1
          · by_cases hlen : r1.length < 8
            · rw [parse_fields_w1_trunc hdec h1 hlen] at h
              cases h
            · have hlen8 : 8 ≤ r1.length := by omega
              rw [parse_fields_w1 hdec h1 hlen8] at h
              rcases hps : parse_fields (r1.drop 8) with e | gs
              · rw [hps] at h; cases h
              · rw [hps] at h
                cases h
                have hrec := ih (r1.drop 8) (by simp at ha ⊢; omega) gs b hps
                rw [parse_fields_w1 hdecapp h1 (by simp; omega),
                  take_append_of_le hlen8, drop_append_of_le hlen8, hrec]
                cases parse_fields b <;> rfl
          · by_cases h2 : tag &&& 7 = 2
            · rcases hdec2 : decode_varint r1 with e | ⟨len, r2⟩
              · rw [parse_fields_w2_error hdec h2 hdec2] at h
                cases h
              · have hr2 : r2.length < r1.length := decode_varint_rest_lt hdec2
                by_cases hlen : r2.length < len
                · rw [parse_fields_w2_trunc hdec h2 hdec2 hlen] at h
                  cases h
                · have hlenle : len ≤ r2.length := by omega
                  rw [parse_fields_w2 hdec h2 hdec2 hlenle] at h
                  rcases hps : parse_fields (r2.drop len) with e | gs
                  · rw [hps] at h; cases h
                  · rw [hps] at h
                    cases h
                    have hrec := ih (r2.drop len) (by simp at ha ⊢; omega) gs b hps
                    rw [parse_fields_w2 hdecapp h2 (decode_varint_append hdec2)
                      (by simp; omega), take_append_of_le hlenle,
                      drop_append_of_le hlenle, hrec]
                    cases parse_fields b <;> rfl
            · by_cases h5 : tag &&& 7 = 5
              · by_cases hlen : r1.length < 4
                · rw [parse_fields_w5_trunc hdec h5 hlen] at h
                  cases h
                · have hlen4 : 4 ≤ r1.length := by omega
                  rw [parse_fields_w5 hdec h5 hlen4] at h
                  rcases hps : parse_fields (r1.drop 4) with e | gs
                  · rw [hps] at h; cases h
                  · rw [hps] at h
                    cases h
                    have hrec := ih (r1.drop 4) (by simp at ha ⊢; omega) gs b hps
                    rw [parse_fields_w5 hdecapp h5 (by simp; omega),
                      take_append_of_le hlen4, drop_append_of_le hlen4, hrec]
                    cases parse_fields b <;> rfl
              · rw [parse_fields_wbad hdec h0 h1 h2 h5] at h
                cases h

/-! ### Round trip of encoded fields -/

theorem tag_recompose (tag : Nat) :
    ((tag >>> 3) <<< 3) ||| (tag &&& 7) = tag := by
  have h7 : (7 : Nat) = 2 ^ 3 - 1 := by norm_num
  have hmod : tag &&& 7 = tag % 8 := by
    rw [h7, Nat.and_pow_two_sub_one_eq_mod]
  have hdiv : tag >>> 3 = tag / 8 := by
    rw [Nat.shiftRight_eq_div_pow]
  rw [hmod, hdiv, tag_eq_add (Nat.mod_lt tag (by norm_num)), Nat.div_add_mod]

theorem fn_lt_of_tag_lt {tag : Nat} (h : tag < 2 ^ 77) :
    tag >>> 3 < 2 ^ 74 := by
  rw [Nat.shiftRight_eq_div_pow]
  have h3 : (2:Nat) ^ 3 = 8 := by norm_num
  rw [h3, Nat.div_lt_iff_lt_mul (by norm_num : (0:Nat) < 8)]
  have he : (2:Nat) ^ 74 * 8 = 2 ^ 77 := by norm_num
  omega

theorem tag_lt_of_fn_lt {fn wt : Nat} (hfn : fn < 2 ^ 74) (hwt : wt < 8) :
    8 * fn + wt < 2 ^ 77 := by
  have he : (2:Nat) ^ 77 = 8 * 2 ^ 74 := by norm_num
  omega

theorem and_seven_lt (tag : Nat) : tag &&& 7 < 8 := by
  have h7 : (7 : Nat) = 2 ^ 3 - 1 := by norm_num
  rw [h7, Nat.and_pow_two_sub_one_eq_mod]
  have := Nat.mod_lt tag (show 0 < 2 ^ 3 by norm_num)
  omega

theorem encode_raw_field_w0 (fn n : Nat) :
    encode_raw_field fn 0 (.nat n) = .ok (encodeVarintField fn n) := rfl

theorem encode_raw_field_w1 (fn : Nat) {bs : Bytes} (h : bs.length = 8) :
    encode_raw_field fn 1 (.bytes bs) = .ok (encode_tag fn 1 ++ bs) := by
  simp [encode_raw_field, h]

theorem encode_raw_field_w2 (fn : Nat) (bs : Bytes) :
    encode_raw_field fn 2 (.bytes bs) = .ok (encodeLD fn bs) := rfl

theorem encode_raw_field_w5 (fn : Nat) {bs : Bytes} (h : bs.length = 4) :
    encode_raw_field fn 5 (.bytes bs) = .ok (encode_tag fn 5 ++ bs) := by
  simp [encode_raw_field, h]

theorem encodeFields_cons {fn wt : Nat} {v : FieldValue} {fs : List Field}
    {b rest : Bytes} (h1 : encode_raw_field fn wt v = .ok b)
    (h2 : encodeFields fs = .ok rest) :
    encodeFields ((fn, wt, v) :: fs) = .ok (b ++ rest) := by
  simp [encodeFields, h1, h2]

theorem encodeFields_cons_inv {fn wt : Nat} {v : FieldValue} {fs : List Field}
    {eb : Bytes} (h : encodeFields ((fn, wt, v) :: fs) = .ok eb) :
    ∃ b rest, encode_raw_field fn wt v = .ok b ∧ encodeFields fs = .ok rest ∧
      eb = b ++ rest := by
  rcases h1 : encode_raw_field fn wt v with e | b
  · simp only [encodeFields, h1] at h
    exact Except.noConfusion h
  · rcases h2 : encodeFields fs with e | rest
    · simp only [encodeFields, h1, h2] at h
      exact Except.noConfusion h
    · simp only [encodeFields, h1, h2] at h
      cases h
      exact ⟨b, rest, rfl, rfl, rfl⟩

/-- Parsing a single encoded field at the head of a buffer recovers it. -/
theorem parse_encode_field {fn wt : Nat} {v : FieldValue} {eb : Bytes}
    (h : encode_raw_field fn wt v = .ok eb) (hfn : fn < 2 ^ 74)
    (hv : valueBound v) (rest : List Nat) :
    parse_fields (eb ++ rest) =
      (parse_fields rest).map (fun gs => (fn, wt, v) :: gs) := by
  by_cases hw0 : wt = 0
  · subst hw0
    cases v with
    | bytes bs => simp [encode_raw_field] at h
    | nat n =>
      rw [encode_raw_field_w0] at h
      cases h
      have htag : (fn <<< 3) ||| 0 = 8 * fn + 0 := tag_eq_add (by norm_num)
      have htag77 : 8 * fn + 0 < 2 ^ 77 := tag_lt_of_fn_lt hfn (by norm_num)
      have hdectag :
          decode_varint (encode_varint ((fn <<< 3) ||| 0) ++
            (encode_varint n ++ rest)) = .ok (8 * fn + 0, encode_varint n ++ rest) := by
        rw [htag]
        exact decode_encode_varint htag77 _
      have hdecv : decode_varint (encode_varint n ++ rest) = .ok (n, rest) :=
        decode_encode_varint hv _
      have hstep := parse_fields_w0 hdectag (tag_and_seven (by norm_num)) hdecv
      rw [tag_shiftRight (by norm_num), tag_and_seven (by norm_num)] at hstep
      show parse_fields (encode_tag fn 0 ++ encode_varint n ++ rest) = _
      rw [List.append_assoc]
      exact hstep
  · by_cases hw1 : wt = 1
    · subst hw1
      cases v with
      | nat n => simp [encode_raw_field] at h
      | bytes bs =>
        by_cases hlen : bs.length = 8
        · rw [encode_raw_field_w1 fn hlen] at h
          cases h
          have htag : (fn <<< 3) ||| 1 = 8 * fn + 1 := tag_eq_add (by norm_num)
          have htag77 : 8 * fn + 1 < 2 ^ 77 := tag_lt_of_fn_lt hfn (by norm_num)
          have hdectag :
              decode_varint (encode_varint ((fn <<< 3) ||| 1) ++ (bs ++ rest)) =
                .ok (8 * fn + 1, bs ++ rest) := by
            rw [htag]
            exact decode_encode_varint htag77 _
          have hstep := parse_fields_w1 hdectag (tag_and_seven (by norm_num))
            (by simp [hlen])
          rw [tag_shiftRight (by norm_num), tag_and_seven (by norm_num)] at hstep
          rw [← hlen, List.take_left, List.drop_left] at hstep
          show parse_fields (encode_tag fn 1 ++ bs ++ rest) = _
          rw [List.append_assoc]
          exact hstep
        · simp [encode_raw_field, hlen] at h
    · by_cases hw2 : wt = 2
      · subst hw2
        cases v with
        | nat n => simp [encode_raw_field] at h
        | bytes bs =>
          rw [encode_raw_field_w2] at h
          cases h
          have htag : (fn <<< 3) ||| 2 = 8 * fn + 2 := tag_eq_add (by norm_num)
          have htag77 : 8 * fn + 2 < 2 ^ 77 := tag_lt_of_fn_lt hfn (by norm_num)
          have hdectag :
              decode_varint (encode_varint ((fn <<< 3) ||| 2) ++
                (encode_varint bs.length ++ (bs ++ rest))) =
                .ok (8 * fn + 2, encode_varint bs.length ++ (bs ++ rest)) := by
            rw [htag]
            exact decode_encode_varint htag77 _
          have hdeclen :
              decode_varint (encode_varint bs.length ++ (bs ++ rest)) =
                .ok (bs.length, bs ++ rest) :=
            decode_encode_varint hv _
          have hstep := parse_fields_w2 hdectag (tag_and_seven (by norm_num))
            hdeclen (by simp)
          rw [tag_shiftRight (by norm_num), tag_and_seven (by norm_num),
            List.take_left, List.drop_left] at hstep
          show parse_fields (encode_tag fn 2 ++ encode_varint bs.length ++ bs
            ++ rest) = _
          rw [List.append_assoc, List.append_assoc]
          exact hstep
      · by_cases hw5 : wt = 5
        · subst hw5
          cases v with
          | nat n => simp [encode_raw_field] at h
          | bytes bs =>
            by_cases hlen : bs.length = 4
            · rw [encode_raw_field_w5 fn hlen] at h
              cases h
              have htag : (fn <<< 3) ||| 5 = 8 * fn + 5 := tag_eq_add (by norm_num)
              have htag77 : 8 * fn + 5 < 2 ^ 77 := tag_lt_of_fn_lt hfn (by norm_num)
              have hdectag :
                  decode_varint (encode_varint ((fn <<< 3) ||| 5) ++ (bs ++ rest)) =
                    .ok (8 * fn + 5, bs ++ rest) := by
                rw [htag]
                exact decode_encode_varint htag77 _
              have hstep := parse_fields_w5 hdectag (tag_and_seven (by norm_num))
                (by simp [hlen])
              rw [tag_shiftRight (by norm_num), tag_and_seven (by norm_num)] at hstep
              rw [← hlen, List.take_left, List.drop_left] at hstep
              show parse_fields (encode_tag fn 5 ++ bs ++ rest) = _
              rw [List.append_assoc]
              exact hstep
            · simp [encode_raw_field, hlen] at h
        · simp [encode_raw_field, hw0, hw1, hw2, hw5] at h

/-- Parsing the encoding of a bounded field sequence followed by more bytes
recovers the sequence and continues. -/
theorem parse_encode_fields :
    ∀ (fs : List Field) (eb : Bytes), encodeFields fs = .ok eb →
      (∀ f ∈ fs, f.1 < 2 ^ 74 ∧ valueBound f.2.2) →
      ∀ rest, parse_fields (eb ++ rest) =
        (parse_fields rest).map (fun gs => fs ++ gs) := by
  intro fs
  induction fs with
  | nil =>
    intro eb h hb rest
    cases h
    simp only [List.nil_append]
    cases parse_fields rest <;> rfl
  | cons f fs ih =>
    intro eb h hb rest
    obtain ⟨fn, wt, v⟩ := f
    obtain ⟨b, ebr, h1, h2, rfl⟩ := encodeFields_cons_inv h
    have hbf := hb (fn, wt, v) (by simp)
    have hrec := ih ebr h2 (fun g hg => hb g (by simp [hg])) rest
    rw [List.append_assoc, parse_encode_field h1 hbf.1 hbf.2, hrec]
    cases parse_fields rest <;> rfl

/-- Round trip of a bounded field sequence through `encodeFields` and
`parse_fields`. -/
theorem parse_encode_fields_self {fs : List Field} {eb : Bytes}
    (h : encodeFields fs = .ok eb)
    (hb : ∀ f ∈ fs, f.1 < 2 ^ 74 ∧ valueBound f.2.2) :
    parse_fields eb = .ok fs := by
  have h0 := parse_encode_fields fs eb h hb []
  rw [List.append_nil, parse_fields_nil] at h0
  simpa [Except.map] using h0

/-- A successfully parsed field sequence re-encodes successfully, at most as
long as the source buffer (tags are re-encoded minimally), and every parsed
field is bounded. -/
theorem parse_fields_ok_spec :
    ∀ (n : Nat) (data : List Nat), data.length ≤ n → ∀ fs,
      parse_fields data = .ok fs →
      ∃ eb, encodeFields fs = .ok eb ∧ eb.length ≤ data.length ∧
        ∀ f ∈ fs, f.1 < 2 ^ 74 ∧ valueBound f.2.2 := by
  intro n
  induction n with
  | zero =>
    intro data ha fs h
    have : data = [] := List.eq_nil_of_length_eq_zero (by omega)
    subst this
    rw [parse_fields_nil] at h
    cases h
    exact ⟨[], rfl, by simp, by simp⟩
  | succ n ih =>
    intro data ha fs h
    cases data with
    | nil =>
      rw [parse_fields_nil] at h
      cases h
      exact ⟨[], rfl, by simp, by simp⟩
    | cons b0 bs0 =>
      simp only [List.length_cons] at ha
      rcases hdec : decode_varint (b0 :: bs0) with e | ⟨tag, r1⟩
      · rw [parse_fields_tag_error (by simp) hdec] at h
        cases h
      · obtain ⟨k1, hk1a, hk1len, hk1cap, hrest1, _, hmin1, htag77⟩ :=
          decode_varint_ok hdec
        have hr1len : r1.length = (b0 :: bs0).length - k1 := by
          rw [hrest1, List.length_drop]
        simp only [List.length_cons] at hk1len hr1len
        have htagenc : encode_tag (tag >>> 3) (tag &&& 7) = encode_varint tag := by
          show encode_varint _ = _
          rw [tag_recompose]
        have hfn74 : tag >>> 3 < 2 ^ 74 := fn_lt_of_tag_lt htag77
        by_cases h0 : tag &&& 7 = 0
        · rcases hdec2 : decode_varint r1 with e | ⟨v, r2⟩
          · rw [parse_fields_w0_error hdec h0 hdec2] at h
            cases h
          · obtain ⟨k2, hk2a, hk2len, hk2cap, hrest2, _, hmin2, hv77⟩ :=
              decode_varint_ok hdec2
            have hr2len : r2.length = r1.length - k2 := by
              rw [hrest2, List.length_drop]
            rw [parse_fields_w0 hdec h0 hdec2] at h
            rcases hps : parse_fields r2 with e | gs
            · rw [hps] at h; cases h
            · rw [hps] at h
              cases h
              obtain ⟨eb, heb, heblen, hebb⟩ := ih r2 (by omega) gs hps
              refine ⟨encodeVarintField (tag >>> 3) v ++ eb, ?_, ?_, ?_⟩
              · have henc : encode_raw_field (tag >>> 3) (tag &&& 7)
                    (FieldValue.nat v) = .ok (encodeVarintField (tag >>> 3) v) := by
                  rw [h0]
                  exact encode_raw_field_w0 _ _
                exact encodeFields_cons henc heb
              · have hlen1 : (encodeVarintField (tag >>> 3) v).length ≤ k1 + k2 := by
                  show (encode_tag (tag >>> 3) 0 ++ encode_varint v).length ≤ _
                  rw [← h0, htagenc, List.length_append]
                  omega
                have he : eb.length ≤ r2.length := by omega
                simp only [List.length_append, List.length_cons]
                omega
              · intro f hf
                rcases List.mem_cons.mp hf with rfl | hf2
                · exact ⟨hfn74, hv77⟩
                · exact hebb f hf2
        · by_cases h1 : tag &&& 7 = 1
          · by_cases hlen : r1.length < 8
            · rw [parse_fields_w1_trunc hdec h1 hlen] at h
              cases h
            · have hlen8 : 8 ≤ r1.length := by omega
              rw [parse_fields_w1 hdec h1 hlen8] at h
              rcases hps : parse_fields (r1.drop 8) with e | gs
              · rw [hps] at h; cases h
              · rw [hps] at h
                cases h
                obtain ⟨eb, heb, heblen, hebb⟩ :=
                  ih (r1.drop 8) (by simp; omega) gs hps
                have htk : (r1.take 8).length = 8 := by
                  simp
                  omega
                refine ⟨(encode_tag (tag >>> 3) 1 ++ r1.take 8) ++ eb, ?_, ?_, ?_⟩
                · have henc : encode_raw_field (tag >>> 3) (tag &&& 7)
                      (FieldValue.bytes (r1.take 8)) =
                      .ok (encode_tag (tag >>> 3) 1 ++ r1.take 8) := by
                    rw [h1]
                    exact encode_raw_field_w1 _ htk
                  exact encodeFields_cons henc heb
                · have htg : (encode_tag (tag >>> 3) 1).length ≤ k1 := by
                    rw [← h1, htagenc]
                    omega
                  have he : eb.length ≤ r1.length - 8 := by
                    simpa using heblen
                  simp only [List.length_append, List.length_cons]
                  rw [htk]
                  omega
                · intro f hf
                  rcases List.mem_cons.mp hf with rfl | hf2
                  · refine ⟨hfn74, ?_⟩
                    show (r1.take 8).length < 2 ^ 77
                    rw [htk]
                    norm_num
                  · exact hebb f hf2
          · by_cases h2 : tag &&& 7 = 2
            · rcases hdec2 : decode_varint r1 with e | ⟨len, r2⟩
              · rw [parse_fields_w2_error hdec h2 hdec2] at h
                cases h
              · obtain ⟨k2, hk2a, hk2len, hk2cap, hrest2, _, hmin2, hlen77⟩ :=
                  decode_varint_ok hdec2
                have hr2len : r2.length = r1.length - k2 := by
                  rw [hrest2, List.length_drop]
                by_cases hlen : r2.length < len
                · rw [parse_fields_w2_trunc hdec h2 hdec2 hlen] at h
                  cases h
                · have hlenle : len ≤ r2.length := by omega
                  rw [parse_fields_w2 hdec h2 hdec2 hlenle] at h
                  rcases hps : parse_fields (r2.drop len) with e | gs
                  · rw [hps] at h; cases h
                  · rw [hps] at h
                    cases h
                    obtain ⟨eb, heb, heblen, hebb⟩ :=
                      ih (r2.drop len) (by simp; omega) gs hps
                    have htk : (r2.take len).length = len := by
                      simp
                      omega
                    refine ⟨encodeLD (tag >>> 3) (r2.take len) ++ eb, ?_, ?_, ?_⟩
                    · have henc : encode_raw_field (tag >>> 3) (tag &&& 7)
                          (FieldValue.bytes (r2.take len)) =
                          .ok (encodeLD (tag >>> 3) (r2.take len)) := by
                        rw [h2]
                        exact encode_raw_field_w2 _ _
                      exact encodeFields_cons henc heb
                    · have htg : (encode_tag (tag >>> 3) 2).length ≤ k1 := by
                        rw [← h2, htagenc]
                        omega
                      have hl2 : (encode_varint (r2.take len).length).length ≤ k2 := by
                        rw [htk]
                        omega
                      have he : eb.length ≤ r2.length - len := by
                        simpa using heblen
                      show (encode_tag _ 2 ++ encode_varint (r2.take len).length ++
                        r2.take len ++ eb).length ≤ _
                      simp only [List.length_append, List.length_cons]
                      rw [htk]
                      omega
                    · intro f hf
                      rcases List.mem_cons.mp hf with rfl | hf2
                      · refine ⟨hfn74, ?_⟩
                        show (r2.take len).length < 2 ^ 77
                        rw [htk]
                        omega
                      · exact hebb f hf2
            · by_cases h5 : tag &&& 7 = 5
              · by_cases hlen : r1.length < 4
                · rw [parse_fields_w5_trunc hdec h5 hlen] at h
                  cases h
                · have hlen4 : 4 ≤ r1.length := by omega
                  rw [parse_fields_w5 hdec h5 hlen4] at h
                  rcases hps : parse_fields (r1.drop 4) with e | gs
                  · rw [hps] at h; cases h
                  · rw [hps] at h
                    cases h
                    obtain ⟨eb, heb, heblen, hebb⟩ :=
                      ih (r1.drop 4) (by simp; omega) gs hps
                    have htk : (r1.take 4).length = 4 := by
                      simp
                      omega
                    refine ⟨(encode_tag (tag >>> 3) 5 ++ r1.take 4) ++ eb, ?_, ?_, ?_⟩
                    · have henc : encode_raw_field (tag >>> 3) (tag &&& 7)
                          (FieldValue.bytes (r1.take 4)) =
                          .ok (encode_tag (tag >>> 3) 5 ++ r1.take 4) := by
                        rw [h5]
                        exact encode_raw_field_w5 _ htk
                      exact encodeFields_cons henc heb
                    · have htg : (encode_tag (tag >>> 3) 5).length ≤ k1 := by
                        rw [← h5, htagenc]
                        omega
                      have he : eb.length ≤ r1.length - 4 := by
                        simpa using heblen
                      simp only [List.length_append, List.length_cons]
                      rw [htk]
                      omega
                    · intro f hf
                      rcases List.mem_cons.mp hf with rfl | hf2
                      · refine ⟨hfn74, ?_⟩
                        show (r1.take 4).length < 2 ^ 77
                        rw [htk]
                        norm_num
                      · exact hebb f hf2
              · rw [parse_fields_wbad hdec h0 h1 h2 h5] at h
                cases h

/-! ### Field classification -/

theorem kindOK_of_encOK {f : Field} (h : encOK f) : kindOK f := by
  obtain ⟨fn, wt, v⟩ := f
  obtain ⟨b, hb⟩ := h
  show kindOK (fn, wt, v)
  cases v with
  | nat n =>
    show wt = 0
    by_contra hw
    by_cases h1 : wt = 1
    · simp [encode_raw_field, hw, h1] at hb
    · by_cases h2 : wt = 2
      · simp [encode_raw_field, hw, h1, h2] at hb
      · by_cases h5 : wt = 5
        · simp [encode_raw_field, hw, h1, h2, h5] at hb
        · simp [encode_raw_field, hw, h1, h2, h5] at hb
  | bytes bs =>
    show wt ≠ 0
    intro hw
    subst hw
    simp [encode_raw_field] at hb

theorem encodeFields_mem_ok :
    ∀ (fs : List Field) (eb : Bytes), encodeFields fs = .ok eb →
      ∀ f ∈ fs, encOK f := by
  intro fs
  induction fs with
  | nil => intro eb _ f hf; cases hf
  | cons g gs ih =>
    intro eb h f hf
    obtain ⟨fn, wt, v⟩ := g
    obtain ⟨b, rest, h1, h2, _⟩ := encodeFields_cons_inv h
    rcases List.mem_cons.mp hf with rfl | hf2
    · exact ⟨b, h1⟩
    · exact ih rest h2 f hf2

theorem encodeFields_of_mem_ok :
    ∀ (fs : List Field), (∀ f ∈ fs, encOK f) →
      ∃ eb, encodeFields fs = .ok eb := by
  intro fs
  induction fs with
  | nil => exact fun _ => ⟨[], rfl⟩
  | cons g gs ih =>
    intro h
    obtain ⟨fn, wt, v⟩ := g
    obtain ⟨b, hb⟩ := h (fn, wt, v) (by simp)
    obtain ⟨rest, hrest⟩ := ih (fun f hf => h f (by simp [hf]))
    exact ⟨b ++ rest, encodeFields_cons hb hrest⟩

theorem encodeFields_length :
    ∀ (fs : List Field) (eb : Bytes), encodeFields fs = .ok eb →
      eb.length = (fs.map encFieldLen).sum := by
  intro fs
  induction fs with
  | nil => intro eb h; cases h; rfl
  | cons g gs ih =>
    intro eb h
    obtain ⟨fn, wt, v⟩ := g
    obtain ⟨b, rest, h1, h2, rfl⟩ := encodeFields_cons_inv h
    simp only [List.map_cons, List.sum_cons, List.length_append, ih rest h2]
    have : encFieldLen (fn, wt, v) = b.length := by
      unfold encFieldLen
      rw [h1]
    omega

/-! ### The dictionary-field fold -/

theorem lastD_ne_none {α : Type} {l : List α} {x : α} :
    lastD l (some x) ≠ none := by
  induction l generalizing x with
  | nil => simp [lastD]
  | cons y ys ih => exact ih

theorem idValues_cons (fn wt : Nat) (v : FieldValue) (fs : List Field) :
    idValues ((fn, wt, v) :: fs) =
      (if fn = 1 ∧ wt = 0 then
        (match v with | FieldValue.nat n => [n] | FieldValue.bytes _ => []) ++
          idValues fs
      else idValues fs) := rfl

theorem nameValues_cons (fn wt : Nat) (v : FieldValue) (fs : List Field) :
    nameValues ((fn, wt, v) :: fs) =
      (if ¬ (fn = 1 ∧ wt = 0) ∧ fn = 3 ∧ wt = 2 then
        (match v with | FieldValue.nat _ => [] | FieldValue.bytes bs => [bs]) ++
          nameValues fs
      else nameValues fs) := rfl

theorem entryValues_cons (fn wt : Nat) (v : FieldValue) (fs : List Field) :
    entryValues ((fn, wt, v) :: fs) =
      (if ¬ (fn = 1 ∧ wt = 0) ∧ ¬ (fn = 3 ∧ wt = 2) ∧ fn = 4 ∧ wt = 2 then
        (match v with | FieldValue.nat _ => [] | FieldValue.bytes bs => [bs]) ++
          entryValues fs
      else entryValues fs) := rfl

/-- Success of the dictionary fold implies every NAME field's bytes decoded
as UTF-8. -/
theorem parseDictFields_names_valid :
    ∀ (fs : List Field) id0 name0 es0 uk0 (d : DictionaryData),
      parseDictFields fs id0 name0 es0 uk0 = .ok d →
      ∀ bs ∈ nameValues fs, utf8Valid bs = true := by
  intro fs
  induction fs with
  | nil => intro _ _ _ _ _ _ bs hbs; simp [nameValues] at hbs
  | cons f fs ih =>
    intro id0 name0 es0 uk0 d h bs hbs
    obtain ⟨fn, wt, v⟩ := f
    simp only [parseDictFields] at h
    by_cases hc1 : fn = 1 ∧ wt = 0
    · rw [if_pos hc1] at h
      rw [nameValues_cons, if_neg (by tauto)] at hbs
      cases v with
      | nat n => exact ih _ _ _ _ _ h bs hbs
      | bytes _ => exact Except.noConfusion h
    · rw [if_neg hc1] at h
      by_cases hc2 : fn = 3 ∧ wt = 2
      · rw [if_pos hc2] at h
        have hcond : ¬ (fn = 1 ∧ wt = 0) ∧ fn = 3 ∧ wt = 2 := ⟨hc1, hc2⟩
        rw [nameValues_cons, if_pos hcond] at hbs
        cases v with
        | nat n => exact Except.noConfusion h
        | bytes nb =>
          dsimp only at h hbs
          by_cases hval : utf8Valid nb = true
          · rw [if_pos hval] at h
            rcases List.mem_cons.mp hbs with rfl | hbs2
            · exact hval
            · exact ih _ _ _ _ _ h bs hbs2
          · rw [if_neg hval] at h
            exact Except.noConfusion h
      · rw [if_neg hc2] at h
        rw [nameValues_cons, if_neg (by tauto)] at hbs
        by_cases hc3 : fn = 4 ∧ wt = 2
        · rw [if_pos hc3] at h
          cases v with
          | bytes eb => exact ih _ _ _ _ _ h bs hbs
          | nat n => exact ih _ _ _ _ _ h bs hbs
        · rw [if_neg hc3] at h
          exact ih _ _ _ _ _ h bs hbs

/-- Characterization of the dictionary fold: last-wins for ID and NAME,
entries and unknown fields appended in order. -/
theorem parseDictFields_spec :
    ∀ (fs : List Field) id0 name0 es0 uk0,
      (∀ f ∈ fs, kindOK f) →
      (∀ bs ∈ nameValues fs, utf8Valid bs = true) →
      parseDictFields fs id0 name0 es0 uk0 =
        match lastD (idValues fs) id0, lastD (nameValues fs) name0 with
        | some i, some nm =>
          .ok ⟨i, nm, es0 ++ entryValues fs, uk0 ++ fs.filter isDictUnknown⟩
        | _, _ => .error .missingRequiredField := by
  intro fs
  induction fs with
  | nil =>
    intro id0 name0 es0 uk0 _ _
    rcases id0 with _ | i <;> rcases name0 with _ | nm <;>
      simp [parseDictFields, idValues, nameValues, entryValues, lastD]
  | cons f fs ih =>
    intro id0 name0 es0 uk0 hkind hval
    obtain ⟨fn, wt, v⟩ := f
    have hkf : kindOK (fn, wt, v) := hkind (fn, wt, v) (by simp)
    have hkind' : ∀ f ∈ fs, kindOK f := fun g hg => hkind g (by simp [hg])
    by_cases hc1 : fn = 1 ∧ wt = 0
    · cases v with
      | bytes bs => exact absurd hc1.2 hkf
      | nat n =>
        have hval' : ∀ bs ∈ nameValues fs, utf8Valid bs = true := by
          intro bs hbs
          apply hval
          rw [nameValues_cons, if_neg (by tauto)]
          exact hbs
        simp only [parseDictFields]
        rw [if_pos hc1]
        rw [ih (some n) name0 es0 uk0 hkind' hval']
        rw [idValues_cons, if_pos hc1, nameValues_cons, if_neg (by tauto),
          entryValues_cons, if_neg (by tauto)]
        have hu : isDictUnknown (fn, wt, FieldValue.nat n) = false := by
          simp [isDictUnknown]
          tauto
        rw [List.filter_cons, hu]
        dsimp only [List.cons_append, List.nil_append, lastD]
        rfl
    · by_cases hc2 : fn = 3 ∧ wt = 2
      · cases v with
        | nat n => exact absurd (show wt = 0 from hkf) (by omega)
        | bytes nb =>
          have hcond : ¬ (fn = 1 ∧ wt = 0) ∧ fn = 3 ∧ wt = 2 := ⟨hc1, hc2⟩
          have hnbmem : nb ∈ nameValues ((fn, wt, FieldValue.bytes nb) :: fs) := by
            rw [nameValues_cons, if_pos hcond]
            simp
          have hval' : ∀ bs ∈ nameValues fs, utf8Valid bs = true := by
            intro bs hbs
            apply hval
            rw [nameValues_cons, if_pos hcond]
            simp [hbs]
          simp only [parseDictFields]
          rw [if_neg hc1, if_pos hc2]
          rw [if_pos (hval nb hnbmem)]
          rw [ih id0 (some nb) es0 uk0 hkind' hval']
          rw [idValues_cons, if_neg (by tauto), nameValues_cons, if_pos hcond,
            entryValues_cons, if_neg (by tauto)]
          have hu : isDictUnknown (fn, wt, FieldValue.bytes nb) = false := by
            simp [isDictUnknown]
            tauto
          rw [List.filter_cons, hu]
          dsimp only [List.cons_append, List.nil_append, lastD]
          rfl
      · by_cases hc3 : fn = 4 ∧ wt = 2
        · cases v with
          | nat n => exact absurd (show wt = 0 from hkf) (by omega)
          | bytes eb =>
            have hcond : ¬ (fn = 1 ∧ wt = 0) ∧ ¬ (fn = 3 ∧ wt = 2) ∧
                fn = 4 ∧ wt = 2 := ⟨hc1, hc2, hc3⟩
            have hval' : ∀ bs ∈ nameValues fs, utf8Valid bs = true := by
              intro bs hbs
              apply hval
              rw [nameValues_cons, if_neg (by tauto)]
              exact hbs
            simp only [parseDictFields]
            rw [if_neg hc1, if_neg hc2, if_pos hc3]
            rw [ih id0 name0 (es0 ++ [eb]) uk0 hkind' hval']
            rw [idValues_cons, if_neg (by tauto), nameValues_cons,
              if_neg (by tauto), entryValues_cons, if_pos hcond]
            have hu : isDictUnknown (fn, wt, FieldValue.bytes eb) = false := by
              simp [isDictUnknown]
              tauto
            rw [List.filter_cons, hu]
            dsimp only [List.cons_append, List.nil_append, lastD]
            rcases lastD (idValues fs) id0 with _ | i <;>
              rcases lastD (nameValues fs) name0 with _ | nm <;> simp
        · have hval' : ∀ bs ∈ nameValues fs, utf8Valid bs = true := by
            intro bs hbs
            apply hval
            rw [nameValues_cons, if_neg (by tauto)]
            exact hbs
          simp only [parseDictFields]
          rw [if_neg hc1, if_neg hc2, if_neg hc3]
          rw [ih id0 name0 es0 (uk0 ++ [(fn, wt, v)]) hkind' hval']
          rw [idValues_cons, if_neg (by tauto), nameValues_cons,
            if_neg (by tauto), entryValues_cons, if_neg (by tauto)]
          have hu : isDictUnknown (fn, wt, v) = true := by
            simp [isDictUnknown]
            tauto
          rw [List.filter_cons, hu]
          rcases lastD (idValues fs) id0 with _ | i <;>
            rcases lastD (nameValues fs) name0 with _ | nm <;> simp

/-! ### The storage-field fold -/

theorem dictPayloads_cons (fn wt : Nat) (v : FieldValue) (fs : List Field) :
    dictPayloads ((fn, wt, v) :: fs) =
      (if fn = 2 ∧ wt = 2 then
        (match v with | FieldValue.nat _ => [] | FieldValue.bytes bs => [bs]) ++
          dictPayloads fs
      else dictPayloads fs) := rfl

/-- Characterization of the storage fold. -/
theorem parseStorageFields_spec :
    ∀ (fs : List Field), (∀ f ∈ fs, kindOK f) →
      parseStorageFields fs =
        match parseDicts (dictPayloads fs) with
        | .error e => .error e
        | .ok ds => .ok (ds, fs.filter isStorageUnknown) := by
  intro fs
  induction fs with
  | nil => intro _; rfl
  | cons f fs ih =>
    intro hkind
    obtain ⟨fn, wt, v⟩ := f
    have hkf : kindOK (fn, wt, v) := hkind (fn, wt, v) (by simp)
    have hkind' : ∀ f ∈ fs, kindOK f := fun g hg => hkind g (by simp [hg])
    by_cases hc : fn = 2 ∧ wt = 2
    · cases v with
      | nat n => exact absurd (show wt = 0 from hkf) (by omega)
      | bytes bs =>
        simp only [parseStorageFields]
        rw [if_pos hc, dictPayloads_cons, if_pos hc]
        have hu : isStorageUnknown (fn, wt, FieldValue.bytes bs) = false := by
          simp [isStorageUnknown]
          tauto
        rw [List.filter_cons, hu]
        dsimp only [List.cons_append, List.nil_append, parseDicts]
        rcases parse_dictionary bs with e | d
        · rfl
        · rw [ih hkind']
          rcases parseDicts (dictPayloads fs) with e | ds <;> rfl
    · simp only [parseStorageFields]
      rw [if_neg hc, dictPayloads_cons, if_neg hc]
      have hu : isStorageUnknown (fn, wt, v) = true := by
        simp [isStorageUnknown]
        tauto
      rw [List.filter_cons, hu, ih hkind']
      rcases parseDicts (dictPayloads fs) with e | ds <;> rfl

/-! ### Facts about parsed field sequences -/

theorem parse_fields_kindOK {data : List Nat} {fs : List Field}
    (h : parse_fields data = .ok fs) : ∀ f ∈ fs, kindOK f := by
  obtain ⟨eb, heb, _, _⟩ := parse_fields_ok_spec data.length data le_rfl fs h
  exact fun f hf => kindOK_of_encOK (encodeFields_mem_ok fs eb heb f hf)

theorem parse_fields_fieldOK {data : List Nat} {fs : List Field}
    (h : parse_fields data = .ok fs) :
    ∀ f ∈ fs, f.1 < 2 ^ 74 ∧ valueBound f.2.2 ∧ encOK f := by
  obtain ⟨eb, heb, _, hb⟩ := parse_fields_ok_spec data.length data le_rfl fs h
  intro f hf
  exact ⟨(hb f hf).1, (hb f hf).2, encodeFields_mem_ok fs eb heb f hf⟩

/-! ### Building and re-parsing a dictionary -/

theorem encodeFields_entries :
    ∀ (es : List Bytes) (rest : List Field) (restb : Bytes),
      encodeFields rest = .ok restb →
      encodeFields ((es.map fun e => (4, 2, FieldValue.bytes e)) ++ rest) =
        .ok (encodeEntries es ++ restb) := by
  intro es
  induction es with
  | nil => intro rest restb h; simpa [encodeEntries] using h
  | cons e es ih =>
    intro rest restb h
    simp only [List.map_cons, List.cons_append]
    rw [encodeFields_cons (encode_raw_field_w2 4 e) (ih rest restb h)]
    simp [encodeEntries]

theorem build_dictionary_inv {d : DictionaryData} {pb : Bytes}
    (h : build_dictionary d = .ok pb) :
    ∃ ukb, encodeFields d.unknown_fields = .ok ukb ∧
      pb = encodeVarintField 1 d.dict_id ++ encodeLD 3 d.name ++
        encodeEntries d.entries_raw ++ ukb := by
  unfold build_dictionary at h
  rcases huk : encodeFields d.unknown_fields with e | ukb
  · rw [huk] at h
    exact Except.noConfusion h
  · rw [huk] at h
    cases h
    exact ⟨ukb, rfl, rfl⟩

theorem build_dictionary_of {d : DictionaryData} {ukb : Bytes}
    (huk : encodeFields d.unknown_fields = .ok ukb) :
    build_dictionary d = .ok (encodeVarintField 1 d.dict_id ++
      encodeLD 3 d.name ++ encodeEntries d.entries_raw ++ ukb) := by
  unfold build_dictionary
  rw [huk]

theorem encodeFields_dictFieldList {d : DictionaryData} {ukb : Bytes}
    (huk : encodeFields d.unknown_fields = .ok ukb) :
    encodeFields (dictFieldList d) = .ok (encodeVarintField 1 d.dict_id ++
      encodeLD 3 d.name ++ encodeEntries d.entries_raw ++ ukb) := by
  unfold dictFieldList
  rw [encodeFields_cons (encode_raw_field_w0 1 d.dict_id)
    (encodeFields_cons (encode_raw_field_w2 3 d.name)
      (encodeFields_entries d.entries_raw d.unknown_fields ukb huk))]
  simp [List.append_assoc]

/-! ### Projection values of canonical field lists -/

theorem idValues_entries_append :
    ∀ (es : List Bytes) (fs : List Field),
      idValues ((es.map fun e => (4, 2, FieldValue.bytes e)) ++ fs) =
        idValues fs := by
  intro es
  induction es with
  | nil => intro fs; rfl
  | cons e es ih =>
    intro fs
    simp only [List.map_cons, List.cons_append]
    rw [idValues_cons, if_neg (by omega)]
    exact ih fs

theorem nameValues_entries_append :
    ∀ (es : List Bytes) (fs : List Field),
      nameValues ((es.map fun e => (4, 2, FieldValue.bytes e)) ++ fs) =
        nameValues fs := by
  intro es
  induction es with
  | nil => intro fs; rfl
  | cons e es ih =>
    intro fs
    simp only [List.map_cons, List.cons_append]
    rw [nameValues_cons, if_neg (by omega)]
    exact ih fs

theorem entryValues_entries_append :
    ∀ (es : List Bytes) (fs : List Field),
      entryValues ((es.map fun e => (4, 2, FieldValue.bytes e)) ++ fs) =
        es ++ entryValues fs := by
  intro es
  induction es with
  | nil => intro fs; rfl
  | cons e es ih =>
    intro fs
    simp only [List.map_cons, List.cons_append]
    rw [entryValues_cons, if_pos (by omega)]
    rw [ih fs]
    rfl

theorem filter_entries_append :
    ∀ (es : List Bytes) (fs : List Field),
      List.filter isDictUnknown ((es.map fun e => (4, 2, FieldValue.bytes e))
        ++ fs) = List.filter isDictUnknown fs := by
  intro es
  induction es with
  | nil => intro fs; rfl
  | cons e es ih =>
    intro fs
    simp only [List.map_cons, List.cons_append, List.filter_cons]
    have hu : isDictUnknown (4, 2, FieldValue.bytes e) = false := by
      simp [isDictUnknown]
    rw [hu]
    exact ih fs

theorem isDictUnknown_spec {f : Field} (h : isDictUnknown f = true) :
    ¬ (f.1 = 1 ∧ f.2.1 = 0) ∧ ¬ (f.1 = 3 ∧ f.2.1 = 2) ∧
      ¬ (f.1 = 4 ∧ f.2.1 = 2) := by
  simp [isDictUnknown] at h
  tauto

theorem idValues_unknown :
    ∀ (fs : List Field), (∀ f ∈ fs, isDictUnknown f = true) →
      idValues fs = [] := by
  intro fs
  induction fs with
  | nil => intro _; rfl
  | cons f fs ih =>
    intro h
    obtain ⟨fn, wt, v⟩ := f
    have := (isDictUnknown_spec (h (fn, wt, v) (by simp))).1
    rw [idValues_cons, if_neg this]
    exact ih fun g hg => h g (by simp [hg])

theorem nameValues_unknown :
    ∀ (fs : List Field), (∀ f ∈ fs, isDictUnknown f = true) →
      nameValues fs = [] := by
  intro fs
  induction fs with
  | nil => intro _; rfl
  | cons f fs ih =>
    intro h
    obtain ⟨fn, wt, v⟩ := f
    have := (isDictUnknown_spec (h (fn, wt, v) (by simp))).2.1
    rw [nameValues_cons, if_neg (by tauto)]
    exact ih fun g hg => h g (by simp [hg])

theorem entryValues_unknown :
    ∀ (fs : List Field), (∀ f ∈ fs, isDictUnknown f = true) →
      entryValues fs = [] := by
  intro fs
  induction fs with
  | nil => intro _; rfl
  | cons f fs ih =>
    intro h
    obtain ⟨fn, wt, v⟩ := f
    have := (isDictUnknown_spec (h (fn, wt, v) (by simp))).2.2
    rw [entryValues_cons, if_neg (by tauto)]
    exact ih fun g hg => h g (by simp [hg])

theorem dictFieldList_bounds {d : DictionaryData} (h : DictOK d) :
    ∀ f ∈ dictFieldList d, f.1 < 2 ^ 74 ∧ valueBound f.2.2 := by
  intro f hf
  obtain ⟨hid, hnm, hnml, hes, huk⟩ := h
  unfold dictFieldList at hf
  rcases List.mem_cons.mp hf with rfl | hf
  · exact ⟨by norm_num, hid⟩
  rcases List.mem_cons.mp hf with rfl | hf
  · exact ⟨by norm_num, hnml⟩
  rcases List.mem_append.mp hf with hf | hf
  · obtain ⟨e, he, rfl⟩ := List.mem_map.mp hf
    exact ⟨by norm_num, hes e he⟩
  · exact ⟨(huk f hf).1, (huk f hf).2.1⟩

theorem dictFieldList_kindOK {d : DictionaryData} (h : DictOK d) :
    ∀ f ∈ dictFieldList d, kindOK f := by
  intro f hf
  obtain ⟨hid, hnm, hnml, hes, huk⟩ := h
  unfold dictFieldList at hf
  rcases List.mem_cons.mp hf with rfl | hf
  · exact rfl
  rcases List.mem_cons.mp hf with rfl | hf
  · exact (by norm_num : (2:Nat) ≠ 0)
  rcases List.mem_append.mp hf with hf | hf
  · obtain ⟨e, he, rfl⟩ := List.mem_map.mp hf
    exact (by norm_num : (2:Nat) ≠ 0)
  · exact kindOK_of_encOK (huk f hf).2.2.1

theorem idValues_dictFieldList (d : DictionaryData)
    (huk : ∀ f ∈ d.unknown_fields, isDictUnknown f = true) :
    idValues (dictFieldList d) = [d.dict_id] := by
  unfold dictFieldList
  rw [idValues_cons, if_pos (by omega)]
  rw [idValues_cons, if_neg (by omega)]
  rw [idValues_entries_append, idValues_unknown d.unknown_fields huk]
  rfl

theorem nameValues_dictFieldList (d : DictionaryData)
    (huk : ∀ f ∈ d.unknown_fields, isDictUnknown f = true) :
    nameValues (dictFieldList d) = [d.name] := by
  unfold dictFieldList
  rw [nameValues_cons, if_neg (by omega), nameValues_cons, if_pos (by omega)]
  rw [nameValues_entries_append, nameValues_unknown d.unknown_fields huk]
  rfl

theorem entryValues_dictFieldList (d : DictionaryData)
    (huk : ∀ f ∈ d.unknown_fields, isDictUnknown f = true) :
    entryValues (dictFieldList d) = d.entries_raw := by
  unfold dictFieldList
  rw [entryValues_cons, if_neg (by omega), entryValues_cons,
    if_neg (by omega)]
  rw [entryValues_entries_append, entryValues_unknown d.unknown_fields huk]
  simp

theorem filter_dictFieldList (d : DictionaryData)
    (huk : ∀ f ∈ d.unknown_fields, isDictUnknown f = true) :
    List.filter isDictUnknown (dictFieldList d) = d.unknown_fields := by
  unfold dictFieldList
  rw [List.filter_cons]
  have h1 : isDictUnknown (1, 0, FieldValue.nat d.dict_id) = false := by
    simp [isDictUnknown]
  rw [h1, List.filter_cons]
  have h3 : isDictUnknown (3, 2, FieldValue.bytes d.name) = false := by
    simp [isDictUnknown]
  rw [h3, filter_entries_append]
  exact List.filter_eq_self.mpr huk

/-- Round trip: a well-formed dictionary value rebuilds to a payload that
parses back to exactly the same value. -/
theorem parse_build_dictionary {d : DictionaryData} (h : DictOK d) :
    ∃ pb, build_dictionary d = .ok pb ∧ parse_dictionary pb = .ok d := by
  obtain ⟨hid, hnm, hnml, hes, huk⟩ := h
  obtain ⟨ukb, hukb⟩ := encodeFields_of_mem_ok d.unknown_fields
    (fun f hf => (huk f hf).2.2.1)
  refine ⟨_, build_dictionary_of hukb, ?_⟩
  have henc := encodeFields_dictFieldList hukb
  have hparse : parse_fields (encodeVarintField 1 d.dict_id ++
      encodeLD 3 d.name ++ encodeEntries d.entries_raw ++ ukb) =
      .ok (dictFieldList d) :=
    parse_encode_fields_self henc (dictFieldList_bounds ⟨hid, hnm, hnml, hes, huk⟩)
  unfold parse_dictionary
  rw [hparse]
  show parseDictFields (dictFieldList d) none none [] [] = Except.ok d
  have hukonly : ∀ f ∈ d.unknown_fields, isDictUnknown f = true :=
    fun f hf => (huk f hf).2.2.2
  rw [parseDictFields_spec (dictFieldList d) none none [] []
    (dictFieldList_kindOK ⟨hid, hnm, hnml, hes, huk⟩)
    (by rw [nameValues_dictFieldList d hukonly]; simpa using hnm)]
  rw [idValues_dictFieldList d hukonly, nameValues_dictFieldList d hukonly,
    entryValues_dictFieldList d hukonly, filter_dictFieldList d hukonly]
  rfl

/-! ### Building and re-parsing a storage -/

theorem isStorageUnknown_spec {f : Field} (h : isStorageUnknown f = true) :
    ¬ (f.1 = 2 ∧ f.2.1 = 2) := by
  simp [isStorageUnknown] at h
  tauto

theorem dictPayloads_unknown :
    ∀ (fs : List Field), (∀ f ∈ fs, isStorageUnknown f = true) →
      dictPayloads fs = [] := by
  intro fs
  induction fs with
  | nil => intro _; rfl
  | cons f fs ih =>
    intro h
    obtain ⟨fn, wt, v⟩ := f
    have := isStorageUnknown_spec (h (fn, wt, v) (by simp))
    rw [dictPayloads_cons, if_neg this]
    exact ih fun g hg => h g (by simp [hg])

theorem parseStorageFields_unknown {fs : List Field}
    (hk : ∀ f ∈ fs, kindOK f)
    (hu : ∀ f ∈ fs, isStorageUnknown f = true) :
    parseStorageFields fs = .ok ([], fs) := by
  rw [parseStorageFields_spec fs hk, dictPayloads_unknown fs hu]
  show Except.ok (([] : List DictionaryData), List.filter isStorageUnknown fs) = _
  rw [List.filter_eq_self.mpr hu]

theorem buildStorageDicts_spec :
    ∀ (ds : List DictionaryData),
      (∀ d ∈ ds, DictOK d ∧
        ∀ pb, build_dictionary d = .ok pb → pb.length < 2 ^ 77) →
      ∃ db, buildStorageDicts ds = .ok db ∧
        ∀ (rest : Bytes) (gs : List Field),
          parse_fields rest = .ok gs → (∀ f ∈ gs, kindOK f) →
          ∃ fs, parse_fields (db ++ rest) = .ok fs ∧
            (∀ f ∈ fs, kindOK f) ∧
            parseStorageFields fs =
              (match parseStorageFields gs with
              | .error e => .error e
              | .ok (ds2, uf2) => .ok (ds ++ ds2, uf2)) := by
  intro ds
  induction ds with
  | nil =>
    intro _
    refine ⟨[], rfl, ?_⟩
    intro rest gs hrest hk
    refine ⟨gs, by simpa using hrest, hk, ?_⟩
    rcases hsf : parseStorageFields gs with e | ⟨ds2, uf2⟩ <;> simp
  | cons d ds ih =>
    intro h
    have hd := h d (by simp)
    obtain ⟨pb, hbd, hpd⟩ := parse_build_dictionary hd.1
    have hpblt : pb.length < 2 ^ 77 := hd.2 pb hbd
    obtain ⟨db, hdb, hspec⟩ := ih fun g hg => h g (by simp [hg])
    refine ⟨encodeLD 2 pb ++ db, ?_, ?_⟩
    · simp only [buildStorageDicts, hbd, hdb]
    · intro rest gs hrest hk
      obtain ⟨fs, hfs, hfsk, hfss⟩ := hspec rest gs hrest hk
      refine ⟨(2, 2, FieldValue.bytes pb) :: fs, ?_, ?_, ?_⟩
      · rw [List.append_assoc]
        rw [parse_encode_field (encode_raw_field_w2 2 pb) (by norm_num) hpblt
          (db ++ rest), hfs]
        rfl
      · intro f hf
        rcases List.mem_cons.mp hf with rfl | hf2
        · exact (by norm_num : (2:Nat) ≠ 0)
        · exact hfsk f hf2
      · simp only [parseStorageFields, hpd]
        rw [hfss]
        rcases parseStorageFields gs with e | ⟨ds2, uf2⟩ <;> rfl

/-- Round trip: a well-formed storage value rebuilds to a buffer that
parses back to exactly the same dictionaries and unknown fields. -/
theorem parse_build_storage {ds : List DictionaryData} {ufs : List Field}
    (h : StorageOK ds ufs) :
    ∃ sb, build_storage ds ufs = .ok sb ∧ parse_storage sb = .ok (ds, ufs) := by
  obtain ⟨hds, hufs⟩ := h
  obtain ⟨db, hdb, hspec⟩ := buildStorageDicts_spec ds hds
  obtain ⟨ufsb, hufsb⟩ := encodeFields_of_mem_ok ufs
    (fun f hf => (hufs f hf).2.2.1)
  have hparseufs : parse_fields ufsb = .ok ufs :=
    parse_encode_fields_self hufsb
      (fun f hf => ⟨(hufs f hf).1, (hufs f hf).2.1⟩)
  have hkufs : ∀ f ∈ ufs, kindOK f :=
    fun f hf => kindOK_of_encOK (hufs f hf).2.2.1
  obtain ⟨fs, hfs, hfsk, hfss⟩ := hspec ufsb ufs hparseufs hkufs
  refine ⟨db ++ ufsb, ?_, ?_⟩
  · unfold build_storage
    rw [hdb, hufsb]
  · unfold parse_storage
    rw [hfs]
    show parseStorageFields fs = _
    rw [hfss, parseStorageFields_unknown hkufs
      (fun f hf => (hufs f hf).2.2.2)]
    simp

/-! ### Length accounting: a rebuilt dictionary payload never exceeds its
source -/

theorem sum_partition (g : Field → Nat) :
    ∀ (gs : List Field),
      ((gs.filter isIdField).map g).sum + ((gs.filter isNameField).map g).sum +
        ((gs.filter isEntryField).map g).sum +
        ((gs.filter isDictUnknown).map g).sum = (gs.map g).sum := by
  intro gs
  induction gs with
  | nil => rfl
  | cons f fs ih =>
    obtain ⟨fn, wt, v⟩ := f
    simp only [List.filter_cons, List.map_cons, List.sum_cons]
    by_cases h1 : fn = 1 ∧ wt = 0
    · have e1 : isIdField (fn, wt, v) = true := by simp [isIdField]; tauto
      have e2 : isNameField (fn, wt, v) = false := by simp [isNameField]; omega
      have e3 : isEntryField (fn, wt, v) = false := by simp [isEntryField]; omega
      have e4 : isDictUnknown (fn, wt, v) = false := by
        simp [isDictUnknown]; tauto
      rw [e1, e2, e3, e4]
      simp only [List.map_cons, List.sum_cons, if_true,
        show (false = true) = False by simp, if_false]
      omega
    · by_cases h2 : fn = 3 ∧ wt = 2
      · have e1 : isIdField (fn, wt, v) = false := by simp [isIdField]; omega
        have e2 : isNameField (fn, wt, v) = true := by
          simp [isNameField]; tauto
        have e3 : isEntryField (fn, wt, v) = false := by
          simp [isEntryField]; omega
        have e4 : isDictUnknown (fn, wt, v) = false := by
          simp [isDictUnknown]; tauto
        rw [e1, e2, e3, e4]
        simp only [List.map_cons, List.sum_cons, if_true,
          show (false = true) = False by simp, if_false]
        omega
      · by_cases h3 : fn = 4 ∧ wt = 2
        · have e1 : isIdField (fn, wt, v) = false := by
            simp [isIdField]; omega
          have e2 : isNameField (fn, wt, v) = false := by
            simp [isNameField]; omega
          have e3 : isEntryField (fn, wt, v) = true := by
            simp [isEntryField]; tauto
          have e4 : isDictUnknown (fn, wt, v) = false := by
            simp [isDictUnknown]; tauto
          rw [e1, e2, e3, e4]
          simp only [List.map_cons, List.sum_cons, if_true,
            show (false = true) = False by simp, if_false]
          omega
        · have e1 : isIdField (fn, wt, v) = false := by
            simp [isIdField]; tauto
          have e2 : isNameField (fn, wt, v) = false := by
            simp [isNameField]; tauto
          have e3 : isEntryField (fn, wt, v) = false := by
            simp [isEntryField]; tauto
          have e4 : isDictUnknown (fn, wt, v) = true := by
            simp [isDictUnknown]; tauto
          rw [e1, e2, e3, e4]
          simp only [List.map_cons, List.sum_cons, if_true,
            show (false = true) = False by simp, if_false]
          omega

theorem mem_map_sum_le {α : Type} (g : α → Nat) :
    ∀ (l : List α) (x : α), x ∈ l → g x ≤ (l.map g).sum := by
  intro l
  induction l with
  | nil => intro x hx; cases hx
  | cons y ys ih =>
    intro x hx
    simp only [List.map_cons, List.sum_cons]
    rcases List.mem_cons.mp hx with rfl | hx2
    · omega
    · have := ih x hx2
      omega

theorem lastD_mem {α : Type} :
    ∀ (l : List α) (d : Option α) (x : α), lastD l d = some x →
      x ∈ l ∨ d = some x := by
  intro l
  induction l with
  | nil => intro d x h; exact Or.inr h
  | cons y ys ih =>
    intro d x h
    rcases ih (some y) x h with h2 | h2
    · exact Or.inl (by simp [h2])
    · cases h2
      exact Or.inl (by simp)

theorem idValues_mem :
    ∀ (gs : List Field) (n : Nat), n ∈ idValues gs →
      (1, 0, FieldValue.nat n) ∈ gs := by
  intro gs
  induction gs with
  | nil => intro n h; simp [idValues] at h
  | cons f fs ih =>
    intro n h
    obtain ⟨fn, wt, v⟩ := f
    rw [idValues_cons] at h
    by_cases hc : fn = 1 ∧ wt = 0
    · rw [if_pos hc] at h
      obtain ⟨rfl, rfl⟩ := hc
      cases v with
      | nat m =>
        dsimp only at h
        rcases List.mem_cons.mp h with rfl | h2
        · simp
        · exact List.mem_cons_of_mem _ (ih n h2)
      | bytes bs =>
        dsimp only at h
        exact List.mem_cons_of_mem _ (ih n h)
    · rw [if_neg hc] at h
      exact List.mem_cons_of_mem _ (ih n h)

theorem nameValues_mem :
    ∀ (gs : List Field) (nm : Bytes), nm ∈ nameValues gs →
      (3, 2, FieldValue.bytes nm) ∈ gs := by
  intro gs
  induction gs with
  | nil => intro nm h; simp [nameValues] at h
  | cons f fs ih =>
    intro nm h
    obtain ⟨fn, wt, v⟩ := f
    rw [nameValues_cons] at h
    by_cases hc : ¬ (fn = 1 ∧ wt = 0) ∧ fn = 3 ∧ wt = 2
    · rw [if_pos hc] at h
      obtain ⟨rfl, rfl⟩ := hc.2
      cases v with
      | nat m =>
        dsimp only at h
        exact List.mem_cons_of_mem _ (ih nm h)
      | bytes bs =>
        dsimp only at h
        rcases List.mem_cons.mp h with rfl | h2
        · simp
        · exact List.mem_cons_of_mem _ (ih nm h2)
    · rw [if_neg hc] at h
      exact List.mem_cons_of_mem _ (ih nm h)

theorem entryValues_mem :
    ∀ (gs : List Field) (e : Bytes), e ∈ entryValues gs →
      (4, 2, FieldValue.bytes e) ∈ gs := by
  intro gs
  induction gs with
  | nil => intro e h; simp [entryValues] at h
  | cons f fs ih =>
    intro e h
    obtain ⟨fn, wt, v⟩ := f
    rw [entryValues_cons] at h
    by_cases hc : ¬ (fn = 1 ∧ wt = 0) ∧ ¬ (fn = 3 ∧ wt = 2) ∧ fn = 4 ∧ wt = 2
    · rw [if_pos hc] at h
      obtain ⟨rfl, rfl⟩ := hc.2.2
      cases v with
      | nat m =>
        dsimp only at h
        exact List.mem_cons_of_mem _ (ih e h)
      | bytes bs =>
        dsimp only at h
        rcases List.mem_cons.mp h with rfl | h2
        · simp
        · exact List.mem_cons_of_mem _ (ih e h2)
    · rw [if_neg hc] at h
      exact List.mem_cons_of_mem _ (ih e h)

theorem entryFields_eq :
    ∀ (gs : List Field), (∀ f ∈ gs, kindOK f) →
      gs.filter isEntryField =
        (entryValues gs).map fun e => (4, 2, FieldValue.bytes e) := by
  intro gs
  induction gs with
  | nil => intro _; rfl
  | cons f fs ih =>
    intro hk
    obtain ⟨fn, wt, v⟩ := f
    have hkf : kindOK (fn, wt, v) := hk (fn, wt, v) (by simp)
    have hk' : ∀ f ∈ fs, kindOK f := fun g hg => hk g (by simp [hg])
    rw [List.filter_cons, entryValues_cons]
    by_cases hc : fn = 4 ∧ wt = 2
    · cases v with
      | nat m => exact absurd (show wt = 0 from hkf) (by omega)
      | bytes e =>
        have he : isEntryField (fn, wt, FieldValue.bytes e) = true := by
          simp [isEntryField]; tauto
        have hcond : ¬ (fn = 1 ∧ wt = 0) ∧ ¬ (fn = 3 ∧ wt = 2) ∧
            fn = 4 ∧ wt = 2 := ⟨by omega, by omega, hc⟩
        rw [he, if_pos (show true = true from rfl), if_pos hcond]
        obtain ⟨rfl, rfl⟩ := hc
        rw [ih hk']
        rfl
    · have he : isEntryField (fn, wt, v) = false := by
        simp [isEntryField]; tauto
      have hcond : ¬ (¬ (fn = 1 ∧ wt = 0) ∧ ¬ (fn = 3 ∧ wt = 2) ∧
          fn = 4 ∧ wt = 2) := by tauto
      rw [he, if_neg (show ¬ (false = true) by simp), if_neg hcond]
      exact ih hk'

theorem encFieldLen_id (n : Nat) :
    encFieldLen (1, 0, FieldValue.nat n) = (encodeVarintField 1 n).length := by
  unfold encFieldLen
  rw [encode_raw_field_w0]

theorem encFieldLen_w2 (fn : Nat) (bs : Bytes) :
    encFieldLen (fn, 2, FieldValue.bytes bs) = (encodeLD fn bs).length := by
  unfold encFieldLen
  rw [encode_raw_field_w2]

theorem encodeEntries_length :
    ∀ (es : List Bytes), (encodeEntries es).length =
      ((es.map fun e => encFieldLen (4, 2, FieldValue.bytes e)).sum) := by
  intro es
  induction es with
  | nil => rfl
  | cons e es ih =>
    simp only [encodeEntries, List.length_append, List.map_cons,
      List.sum_cons, ih, encFieldLen_w2]

theorem parse_dictionary_inv {bs : Bytes} {d : DictionaryData}
    (h : parse_dictionary bs = .ok d) :
    ∃ gs, parse_fields bs = .ok gs ∧
      parseDictFields gs none none [] [] = .ok d := by
  unfold parse_dictionary at h
  rcases hf : parse_fields bs with e | gs
  · rw [hf] at h
    exact Except.noConfusion h
  · rw [hf] at h
    exact ⟨gs, rfl, h⟩

/-- Identification of a parsed dictionary's components: last-wins id and
name, entries and unknown fields in order. -/
theorem parse_dictionary_components {bs : Bytes} {d : DictionaryData}
    (h : parse_dictionary bs = .ok d) :
    ∃ gs, parse_fields bs = .ok gs ∧
      lastD (idValues gs) none = some d.dict_id ∧
      lastD (nameValues gs) none = some d.name ∧
      d.entries_raw = entryValues gs ∧
      d.unknown_fields = gs.filter isDictUnknown := by
  obtain ⟨gs, hf, hfold⟩ := parse_dictionary_inv h
  have hk := parse_fields_kindOK hf
  have hval := parseDictFields_names_valid gs none none [] [] d hfold
  rw [parseDictFields_spec gs none none [] [] hk hval] at hfold
  rcases hid : lastD (idValues gs) none with _ | i
  · rw [hid] at hfold
    exact Except.noConfusion hfold
  · rcases hnm : lastD (nameValues gs) none with _ | nm
    · rw [hid, hnm] at hfold
      exact Except.noConfusion hfold
    · rw [hid, hnm] at hfold
      cases hfold
      exact ⟨gs, hf, hid, hnm, by simp, by simp⟩

/-- A dictionary parsed from a payload is well formed. -/
theorem parse_dictionary_DictOK {bs : Bytes} {d : DictionaryData}
    (h : parse_dictionary bs = .ok d) : DictOK d := by
  obtain ⟨gs, hf, hid, hnm, hes, huk⟩ := parse_dictionary_components h
  have hb := parse_fields_fieldOK hf
  have hkOK := parse_fields_kindOK hf
  obtain ⟨_, hfold⟩ := parse_dictionary_inv h
  have hval := parseDictFields_names_valid gs none none [] [] d
    (by
      obtain ⟨gs2, hf2, hfold2⟩ := parse_dictionary_inv h
      rw [hf] at hf2
      cases hf2
      exact hfold2)
  have hidmem : (1, 0, FieldValue.nat d.dict_id) ∈ gs := by
    rcases lastD_mem _ _ _ hid with hmem | hno
    · exact idValues_mem gs d.dict_id hmem
    · exact Option.noConfusion hno
  have hnmmem0 : d.name ∈ nameValues gs := by
    rcases lastD_mem _ _ _ hnm with hmem | hno
    · exact hmem
    · exact Option.noConfusion hno
  have hnmmem : (3, 2, FieldValue.bytes d.name) ∈ gs :=
    nameValues_mem gs d.name hnmmem0
  refine ⟨?_, ?_, ?_, ?_, ?_⟩
  · exact (hb _ hidmem).2.1
  · exact hval d.name hnmmem0
  · exact (hb _ hnmmem).2.1
  · intro e he
    rw [hes] at he
    exact (hb _ (entryValues_mem gs e he)).2.1
  · intro f hf2
    rw [huk] at hf2
    have hmem := List.mem_of_mem_filter hf2
    have hpred := List.of_mem_filter hf2
    exact ⟨(hb f hmem).1, (hb f hmem).2.1, (hb f hmem).2.2, hpred⟩

/-- The rebuilt payload of a parsed dictionary is no longer than its
source payload. -/
theorem build_dictionary_length_le {bs : Bytes} {d : DictionaryData}
    (h : parse_dictionary bs = .ok d) :
    ∀ pb, build_dictionary d = .ok pb → pb.length ≤ bs.length := by
  intro pb hpb
  obtain ⟨gs, hf, hid, hnm, hes, huk⟩ := parse_dictionary_components h
  have hkOK := parse_fields_kindOK hf
  obtain ⟨eb, heb, heble, _⟩ :=
    parse_fields_ok_spec bs.length bs le_rfl gs hf
  obtain ⟨ukb, hukb, hpbeq⟩ := build_dictionary_inv hpb
  have hidmem : (1, 0, FieldValue.nat d.dict_id) ∈
      gs.filter isIdField := by
    rcases lastD_mem _ _ _ hid with hmem | hno
    · exact List.mem_filter.mpr ⟨idValues_mem gs d.dict_id hmem,
        by simp [isIdField]⟩
    · exact Option.noConfusion hno
  have hnmmem : (3, 2, FieldValue.bytes d.name) ∈
      gs.filter isNameField := by
    rcases lastD_mem _ _ _ hnm with hmem | hno
    · exact List.mem_filter.mpr ⟨nameValues_mem gs d.name hmem,
        by simp [isNameField]⟩
    · exact Option.noConfusion hno
  have h1 : (encodeVarintField 1 d.dict_id).length ≤
      ((gs.filter isIdField).map encFieldLen).sum := by
    rw [← encFieldLen_id]
    exact mem_map_sum_le encFieldLen _ _ hidmem
  have h2 : (encodeLD 3 d.name).length ≤
      ((gs.filter isNameField).map encFieldLen).sum := by
    rw [← encFieldLen_w2]
    exact mem_map_sum_le encFieldLen _ _ hnmmem
  have h3 : (encodeEntries d.entries_raw).length =
      ((gs.filter isEntryField).map encFieldLen).sum := by
    rw [hes, encodeEntries_length, entryFields_eq gs hkOK, List.map_map]
    rfl
  have h4 : ukb.length = ((gs.filter isDictUnknown).map encFieldLen).sum := by
    rw [← huk] at *
    exact encodeFields_length d.unknown_fields ukb hukb
  have hsum := sum_partition encFieldLen gs
  have hebsum := encodeFields_length gs eb heb
  rw [hpbeq]
  simp only [List.length_append]
  omega

/-! ### Parsed storages are well formed -/

theorem parse_storage_inv {raw : Bytes} {ds : List DictionaryData}
    {ufs : List Field} (h : parse_storage raw = .ok (ds, ufs)) :
    ∃ fs, parse_fields raw = .ok fs ∧
      parseStorageFields fs = .ok (ds, ufs) := by
  unfold parse_storage at h
  rcases hf : parse_fields raw with e | fs
  · rw [hf] at h
    exact Except.noConfusion h
  · rw [hf] at h
    exact ⟨fs, rfl, h⟩

theorem parseStorageFields_components {fs : List Field}
    {ds : List DictionaryData} {ufs : List Field}
    (h : parseStorageFields fs = .ok (ds, ufs)) (hk : ∀ f ∈ fs, kindOK f) :
    parseDicts (dictPayloads fs) = .ok ds ∧
      ufs = fs.filter isStorageUnknown := by
  rw [parseStorageFields_spec fs hk] at h
  rcases hd : parseDicts (dictPayloads fs) with e | ds2
  · rw [hd] at h
    exact Except.noConfusion h
  · rw [hd] at h
    cases h
    exact ⟨rfl, rfl⟩

theorem parseDicts_mem :
    ∀ (pbs : List Bytes) (ds : List DictionaryData),
      parseDicts pbs = .ok ds →
      ∀ d ∈ ds, ∃ bs ∈ pbs, parse_dictionary bs = .ok d := by
  intro pbs
  induction pbs with
  | nil =>
    intro ds h d hd
    cases h
    cases hd
  | cons bs rest ih =>
    intro ds h d hd
    simp only [parseDicts] at h
    rcases hp : parse_dictionary bs with e | d0
    · rw [hp] at h
      exact Except.noConfusion h
    · rw [hp] at h
      rcases hr : parseDicts rest with e | ds0
      · rw [hr] at h
        exact Except.noConfusion h
      · rw [hr] at h
        cases h
        rcases List.mem_cons.mp hd with rfl | hd2
        · exact ⟨bs, by simp, hp⟩
        · obtain ⟨bs2, hbs2, hp2⟩ := ih ds0 hr d hd2
          exact ⟨bs2, by simp [hbs2], hp2⟩

theorem dictPayloads_mem :
    ∀ (fs : List Field) (bs : Bytes), bs ∈ dictPayloads fs →
      (2, 2, FieldValue.bytes bs) ∈ fs := by
  intro fs
  induction fs with
  | nil => intro bs h; simp [dictPayloads] at h
  | cons f fs ih =>
    intro bs h
    obtain ⟨fn, wt, v⟩ := f
    rw [dictPayloads_cons] at h
    by_cases hc : fn = 2 ∧ wt = 2
    · rw [if_pos hc] at h
      obtain ⟨rfl, rfl⟩ := hc
      cases v with
      | nat m =>
        dsimp only at h
        exact List.mem_cons_of_mem _ (ih bs h)
      | bytes b2 =>
        dsimp only at h
        rcases List.mem_cons.mp h with rfl | h2
        · simp
        · exact List.mem_cons_of_mem _ (ih bs h2)
    · rw [if_neg hc] at h
      exact List.mem_cons_of_mem _ (ih bs h)

/-- A successfully parsed storage is well formed: every dictionary is
well formed with a bounded rebuilt payload, and every unknown field is
bounded, re-encodable and unrecognized. -/
theorem parse_storage_StorageOK {raw : Bytes} {ds : List DictionaryData}
    {ufs : List Field} (h : parse_storage raw = .ok (ds, ufs)) :
    StorageOK ds ufs := by
  obtain ⟨fs, hf, hsf⟩ := parse_storage_inv h
  have hk := parse_fields_kindOK hf
  have hb := parse_fields_fieldOK hf
  obtain ⟨hdicts, hufs⟩ := parseStorageFields_components hsf hk
  constructor
  · intro d hd
    obtain ⟨bs, hbs, hpd⟩ := parseDicts_mem (dictPayloads fs) ds hdicts d hd
    refine ⟨parse_dictionary_DictOK hpd, ?_⟩
    intro pb hpb
    have hle := build_dictionary_length_le hpd pb hpb
    have hmem := dictPayloads_mem fs bs hbs
    have hbound : bs.length < 2 ^ 77 := (hb _ hmem).2.1
    omega
  · intro f hf2
    rw [hufs] at hf2
    have hmem := List.mem_of_mem_filter hf2
    have hpred := List.of_mem_filter hf2
    exact ⟨(hb f hmem).1, (hb f hmem).2.1, (hb f hmem).2.2, hpred⟩

/-! ### Claim C1 -/

/-- Claim C1 (corrected). The claim as stated — re-encoding any
successfully parsed buffer reproduces the source bytes — is false, because
`build_dictionary` and `build_storage` re-encode in a fixed canonical field
order with minimal tag varints (see `claim_C1_counterexample`, where the
source encodes a dictionary's NAME field before its ID field). The amended
claim holds: for every buffer that `parse_storage` decodes successfully,
re-encoding the parsed result succeeds and yields a canonical buffer that
parses back to exactly the same dictionaries and unknown fields; the
re-encoding is byte-identical to the source precisely when the source is
already in canonical form. -/
theorem claim_C1 (raw : Bytes) (ds : List DictionaryData) (ufs : List Field)
    (h : parse_storage raw = .ok (ds, ufs)) :
    ∃ out, build_storage ds ufs = .ok out ∧
      parse_storage out = .ok (ds, ufs) :=
  parse_build_storage (parse_storage_StorageOK h)

/-- Witness for `claim_C1` at a concrete canonically encoded buffer holding
one dictionary with id 5 and name `"A"`. -/
theorem claim_C1_witness :
    ∃ out, build_storage [⟨5, [0x41], [], []⟩] [] = .ok out ∧
      parse_storage out = .ok ([⟨5, [0x41], [], []⟩], []) :=
  claim_C1 [0x12, 5, 0x08, 5, 0x1A, 1, 0x41] [⟨5, [0x41], [], []⟩] []
    (by decide)

/-- Counterexample refuting claim C1 as stated: a storage buffer whose
dictionary encodes NAME before ID parses successfully but re-encodes to
different bytes (the canonical ID-first order). -/
theorem claim_C1_counterexample :
    parse_storage [0x12, 5, 0x1A, 1, 0x41, 0x08, 5] =
      .ok ([⟨5, [0x41], [], []⟩], []) ∧
    build_storage [⟨5, [0x41], [], []⟩] [] =
      .ok [0x12, 5, 0x08, 5, 0x1A, 1, 0x41] ∧
    ([0x12, 5, 0x08, 5, 0x1A, 1, 0x41] : Bytes) ≠
      [0x12, 5, 0x1A, 1, 0x41, 0x08, 5] := by
  refine ⟨by decide, by decide, by decide⟩

/-! ### Claim C5 -/

theorem encode_varint_pow :
    ∀ k, encode_varint (128 ^ k) = List.replicate k 0x80 ++ [1] := by
  intro k
  induction k with
  | zero => rfl
  | succ n ih =>
    have hge : 128 ≤ 128 ^ (n + 1) := by
      calc (128:Nat) = 128 ^ 1 := (pow_one 128).symm
        _ ≤ 128 ^ (n + 1) := Nat.pow_le_pow_right (by norm_num) (by omega)
    rw [encode_varint_of_ge hge]
    have hpow : (128:Nat) ^ (n + 1) = 128 * 128 ^ n := by ring
    rw [hpow, Nat.mul_mod_right,
      Nat.mul_div_cancel_left _ (by norm_num : (0:Nat) < 128), ih]
    simp [List.replicate_succ]

/-- Claim C5 (corrected): the round trip `parse_fields` after
`encodeFields` recovers the field sequence for fields within the decoder's
bounds (field numbers below `2 ^ 74`, varint values and byte lengths below
`2 ^ 77`); the claim as stated over all encodable fields is false because
the encoder accepts varint values of twelve or more base-128 digits that
the decoder rejects (see `claim_C5_counterexample`). -/
theorem claim_C5 (fs : List Field) (eb : Bytes)
    (h : encodeFields fs = .ok eb)
    (hb : ∀ f ∈ fs, f.1 < 2 ^ 74 ∧ valueBound f.2.2) :
    parse_fields eb = .ok fs :=
  parse_encode_fields_self h hb

/-- Witness for `claim_C5` on one VARINT field. -/
theorem claim_C5_witness : parse_fields [8, 5] = .ok [(1, 0, FieldValue.nat 5)] :=
  claim_C5 [(1, 0, FieldValue.nat 5)] [8, 5] (by decide) (by decide)

/-- Counterexample refuting the unrestricted round-trip claim: `encode`
accepts the varint value `2 ^ 77`, whose twelve-byte encoding `decode`
rejects with `varintTooLong`. -/
theorem claim_C5_counterexample :
    encodeFields [(1, 0, FieldValue.nat (2 ^ 77))] =
      .ok ([8] ++ (List.replicate 11 0x80 ++ [1])) ∧
    parse_fields ([8] ++ (List.replicate 11 0x80 ++ [1])) =
      .error .varintTooLong := by
  constructor
  · have h1 : encode_varint (2 ^ 77) = List.replicate 11 0x80 ++ [1] := by
      have h2 : (2:Nat) ^ 77 = 128 ^ 11 := by norm_num
      rw [h2, encode_varint_pow]
    have h3 := encodeFields_cons (encode_raw_field_w0 1 (2 ^ 77))
      (rfl : encodeFields [] = .ok [])
    rw [h3]
    unfold encodeVarintField
    rw [h1]
    have h4 : encode_tag 1 0 = [8] := by decide
    rw [h4]
    simp
  · decide

/-! ### Claims C8 and C9 -/

/-- A buffer consisting only of continuation bytes, short enough to stay
under the shift cap, truncates. -/
theorem decode_trunc_all_cont :
    ∀ (data : List Nat) (s a : Nat), (∀ b ∈ data, 128 ≤ b) →
      s + 7 * data.length ≤ 70 →
      decode_varint_aux s a data = .error .truncatedInput := by
  intro data
  induction data with
  | nil => intro s a _ _; rfl
  | cons b bs ih =>
    intro s a hcont hs
    simp only [List.length_cons] at hs
    have hb : 128 ≤ b := hcont b (by simp)
    simp only [decode_varint_aux]
    rw [if_neg (by omega), if_neg (by omega)]
    exact ih (s + 7) _ (fun c hc => hcont c (by simp [hc])) (by omega)

/-- Eleven consecutive continuation bytes overflow the shift cap. -/
theorem decode_toolong_aux :
    ∀ (n : Nat) (data : List Nat) (s a : Nat), s + 7 * (n + 1) = 77 →
      n + 1 ≤ data.length → (∀ b ∈ data.take (n + 1), 128 ≤ b) →
      decode_varint_aux s a data = .error .varintTooLong := by
  intro n
  induction n with
  | zero =>
    intro data s a hs hlen hcont
    cases data with
    | nil => simp at hlen
    | cons b bs =>
      have hb : 128 ≤ b := hcont b (by simp)
      simp only [decode_varint_aux]
      rw [if_neg (by omega), if_pos (by omega)]
  | succ n ih =>
    intro data s a hs hlen hcont
    cases data with
    | nil => simp at hlen
    | cons b bs =>
      have hb : 128 ≤ b := hcont b (by simp)
      simp only [List.length_cons] at hlen
      simp only [decode_varint_aux]
      rw [if_neg (by omega), if_neg (by omega)]
      refine ih bs (s + 7) _ (by omega) (by omega) ?_
      intro c hc
      exact hcont c (by simp [hc])

/-- Claim C9 (corrected). The claim as stated — a varint whose first ten
bytes all carry the continuation bit is rejected — is false: the decoder
reads an eleventh byte at shift 70 and accepts it (see
`claim_C9_counterexample`). The amended claim: decoding fails with
`varintTooLong` whenever the first eleven bytes all carry the continuation
bit, and a successful decode consumes at most eleven bytes, never shifts
past 70 bits, and yields a value below `2 ^ 77`. -/
theorem claim_C9 :
    (∀ data : Bytes, 11 ≤ data.length → (∀ b ∈ data.take 11, 128 ≤ b) →
      decode_varint data = .error .varintTooLong) ∧
    (∀ (data : Bytes) (v : Nat) (rest : Bytes),
      decode_varint data = .ok (v, rest) →
      ∃ k, 1 ≤ k ∧ k ≤ 11 ∧ rest = data.drop k ∧ v < 2 ^ 77) := by
  constructor
  · intro data hlen hcont
    exact decode_toolong_aux 10 data 0 0 (by norm_num) hlen hcont
  · intro data v rest h
    obtain ⟨k, hk1, _, hk11, hrest, _, _, hv⟩ := decode_varint_ok h
    exact ⟨k, hk1, hk11, hrest, hv⟩

/-- Witness for `claim_C9`: eleven continuation bytes are rejected, and a
decoded two-byte varint stays within the caps. -/
theorem claim_C9_witness :
    decode_varint (List.replicate 11 0x80) = .error .varintTooLong ∧
    ∃ k, 1 ≤ k ∧ k ≤ 11 ∧ ([] : Bytes) = ([0x81, 1] : Bytes).drop k ∧
      129 < 2 ^ 77 := by
  constructor
  · exact claim_C9.1 (List.replicate 11 0x80) (by decide) (by decide)
  · exact claim_C9.2 [0x81, 1] 129 [] (by decide)

/-- Counterexample refuting claim C9 as stated: an eleven-byte varint whose
first ten bytes all carry the continuation bit decodes successfully (to
`2 ^ 70`). -/
theorem claim_C9_counterexample :
    (∀ b ∈ (List.replicate 10 0x80 ++ [1] : Bytes).take 10, 128 ≤ b) ∧
    decode_varint (List.replicate 10 0x80 ++ [1]) = .ok (2 ^ 70, []) := by
  exact ⟨by decide, by decide⟩

/-- Claim C8 (confirmed): a buffer ending in the middle of a varint (within
the eleven-byte cap), in the middle of a fixed-width value, or before the
end of a length-delimited payload fails with `truncatedInput` and yields no
field sequence. Formalized: after any fully parsed prefix, each of the five
truncation shapes (mid tag varint, mid VARINT value, short FIXED64, short
LENGTH_DELIMITED payload, short FIXED32) makes `parse_fields` fail with
`truncatedInput`. -/
theorem claim_C8 (pre : Bytes) (fs : List Field)
    (hpre : parse_fields pre = .ok fs) :
    (∀ tail : Bytes, tail ≠ [] → tail.length ≤ 10 → (∀ b ∈ tail, 128 ≤ b) →
      parse_fields (pre ++ tail) = .error .truncatedInput) ∧
    (∀ fn : Nat, fn < 2 ^ 74 → ∀ tail : Bytes, tail.length ≤ 10 →
      (∀ b ∈ tail, 128 ≤ b) →
      parse_fields (pre ++ (encode_tag fn 0 ++ tail)) =
        .error .truncatedInput) ∧
    (∀ fn : Nat, fn < 2 ^ 74 → ∀ bs : Bytes, bs.length < 8 →
      parse_fields (pre ++ (encode_tag fn 1 ++ bs)) =
        .error .truncatedInput) ∧
    (∀ fn : Nat, fn < 2 ^ 74 → ∀ len : Nat, len < 2 ^ 77 → ∀ bs : Bytes,
      bs.length < len →
      parse_fields (pre ++ (encode_tag fn 2 ++ (encode_varint len ++ bs))) =
        .error .truncatedInput) ∧
    (∀ fn : Nat, fn < 2 ^ 74 → ∀ bs : Bytes, bs.length < 4 →
      parse_fields (pre ++ (encode_tag fn 5 ++ bs)) =
        .error .truncatedInput) := by
  have happ := parse_fields_append pre.length pre le_rfl fs
  refine ⟨?_, ?_, ?_, ?_, ?_⟩
  · intro tail hne hlen hcont
    have htrunc : decode_varint tail = .error .truncatedInput :=
      decode_trunc_all_cont tail 0 0 hcont (by omega)
    rw [happ tail hpre, parse_fields_tag_error hne htrunc]
    rfl
  · intro fn hfn tail hlen hcont
    have htag : decode_varint (encode_tag fn 0 ++ tail) =
        .ok (8 * fn + 0, tail) := by
      show decode_varint (encode_varint ((fn <<< 3) ||| 0) ++ tail) = _
      rw [tag_eq_add (by norm_num)]
      exact decode_encode_varint (tag_lt_of_fn_lt hfn (by norm_num)) tail
    have htrunc : decode_varint tail = .error .truncatedInput :=
      decode_trunc_all_cont tail 0 0 hcont (by omega)
    rw [happ _ hpre,
      parse_fields_w0_error htag (tag_and_seven (by norm_num)) htrunc]
    rfl
  · intro fn hfn bs hlen
    have htag : decode_varint (encode_tag fn 1 ++ bs) =
        .ok (8 * fn + 1, bs) := by
      show decode_varint (encode_varint ((fn <<< 3) ||| 1) ++ bs) = _
      rw [tag_eq_add (by norm_num)]
      exact decode_encode_varint (tag_lt_of_fn_lt hfn (by norm_num)) bs
    rw [happ _ hpre,
      parse_fields_w1_trunc htag (tag_and_seven (by norm_num)) hlen]
    rfl
  · intro fn hfn len hlen77 bs hlen
    have htag : decode_varint (encode_tag fn 2 ++ (encode_varint len ++ bs)) =
        .ok (8 * fn + 2, encode_varint len ++ bs) := by
      show decode_varint (encode_varint ((fn <<< 3) ||| 2) ++ _) = _
      rw [tag_eq_add (by norm_num)]
      exact decode_encode_varint (tag_lt_of_fn_lt hfn (by norm_num)) _
    have hlenv : decode_varint (encode_varint len ++ bs) = .ok (len, bs) :=
      decode_encode_varint hlen77 bs
    rw [happ _ hpre,
      parse_fields_w2_trunc htag (tag_and_seven (by norm_num)) hlenv hlen]
    rfl
  · intro fn hfn bs hlen
    have htag : decode_varint (encode_tag fn 5 ++ bs) =
        .ok (8 * fn + 5, bs) := by
      show decode_varint (encode_varint ((fn <<< 3) ||| 5) ++ bs) = _
      rw [tag_eq_add (by norm_num)]
      exact decode_encode_varint (tag_lt_of_fn_lt hfn (by norm_num)) bs
    rw [happ _ hpre,
      parse_fields_w5_trunc htag (tag_and_seven (by norm_num)) hlen]
    rfl

/-- Witness for `claim_C8` at the empty prefix: one concrete instance of
each truncation shape. -/
theorem claim_C8_witness :
    parse_fields ([] ++ [0x80]) = .error .truncatedInput ∧
    parse_fields ([] ++ (encode_tag 1 0 ++ [0x80])) = .error .truncatedInput ∧
    parse_fields ([] ++ (encode_tag 1 1 ++ [0, 0, 0])) =
      .error .truncatedInput ∧
    parse_fields ([] ++ (encode_tag 1 2 ++ (encode_varint 5 ++ [7, 7]))) =
      .error .truncatedInput ∧
    parse_fields ([] ++ (encode_tag 1 5 ++ [0])) = .error .truncatedInput := by
  obtain ⟨h1, h2, h3, h4, h5⟩ := claim_C8 [] [] parse_fields_nil
  exact ⟨h1 [0x80] (by decide) (by decide) (by decide),
    h2 1 (by norm_num) [0x80] (by decide) (by decide),
    h3 1 (by norm_num) [0, 0, 0] (by decide),
    h4 1 (by norm_num) 5 (by norm_num) [7, 7] (by decide),
    h5 1 (by norm_num) [0] (by decide)⟩

/-! ### Claim C10 -/

theorem lastD_eq_getLast {α : Type} :
    ∀ (l : List α) (d : Option α),
      lastD l d = match l.getLast? with
        | some x => some x
        | none => d := by
  intro l
  induction l with
  | nil => intro d; rfl
  | cons x xs ih =>
    intro d
    show lastD xs (some x) = _
    rw [ih (some x)]
    cases xs with
    | nil => rfl
    | cons y ys =>
      rw [List.getLast?_cons_cons]
      rcases hgl : (y :: ys).getLast? with _ | z
      · exact absurd (List.getLast?_eq_none_iff.mp hgl) (by simp)
      · rfl

theorem lastD_none_eq_getLast {α : Type} (l : List α) :
    lastD l none = l.getLast? := by
  rw [lastD_eq_getLast]
  rcases l.getLast? with _ | x <;> rfl

/-- Claim C10 (confirmed): on a dictionary blob holding several ID fields
or several NAME fields (all NAME bytes valid UTF-8, so that the parse does
not abort), `parse_dictionary` succeeds, keeps the last occurrence of each,
and puts none of the occurrences into `unknown_fields`, so the earlier
occurrences are lost on re-encode. -/
theorem claim_C10 (raw : Bytes) (fs : List Field)
    (hf : parse_fields raw = .ok fs)
    (hval : ∀ bs ∈ nameValues fs, utf8Valid bs = true)
    (hid : idValues fs ≠ []) (hnm : nameValues fs ≠ []) :
    ∃ d, parse_dictionary raw = .ok d ∧
      (idValues fs).getLast? = some d.dict_id ∧
      (nameValues fs).getLast? = some d.name ∧
      d.entries_raw = entryValues fs ∧
      d.unknown_fields = fs.filter isDictUnknown ∧
      ∀ f ∈ d.unknown_fields, ¬ (f.1 = 1 ∧ f.2.1 = 0) ∧
        ¬ (f.1 = 3 ∧ f.2.1 = 2) := by
  have hk := parse_fields_kindOK hf
  have hpd : parse_dictionary raw = parseDictFields fs none none [] [] := by
    unfold parse_dictionary
    rw [hf]
  rw [hpd, parseDictFields_spec fs none none [] [] hk hval,
    lastD_none_eq_getLast, lastD_none_eq_getLast]
  rcases hid2 : (idValues fs).getLast? with _ | i
  · exact absurd (List.getLast?_eq_none_iff.mp hid2) hid
  · rcases hnm2 : (nameValues fs).getLast? with _ | nm
    · exact absurd (List.getLast?_eq_none_iff.mp hnm2) hnm
    · refine ⟨⟨i, nm, entryValues fs, fs.filter isDictUnknown⟩, by simp,
        rfl, rfl, rfl, rfl, ?_⟩
      intro f hf2
      have := isDictUnknown_spec (List.of_mem_filter hf2)
      exact ⟨this.1, this.2.1⟩

/-- Witness for `claim_C10`: a blob with two ID fields (values 1 then 2)
and two NAME fields (`"A"` then `"B"`) parses to id 2 and name `"B"` with
empty `unknown_fields`. -/
theorem claim_C10_witness :
    ∃ d, parse_dictionary [8, 1, 8, 2, 0x1A, 1, 0x41, 0x1A, 1, 0x42] =
        .ok d ∧
      (idValues [(1, 0, FieldValue.nat 1), (1, 0, FieldValue.nat 2),
        (3, 2, FieldValue.bytes [0x41]), (3, 2, FieldValue.bytes [0x42])]).getLast?
        = some d.dict_id ∧
      (nameValues [(1, 0, FieldValue.nat 1), (1, 0, FieldValue.nat 2),
        (3, 2, FieldValue.bytes [0x41]), (3, 2, FieldValue.bytes [0x42])]).getLast?
        = some d.name ∧
      d.entries_raw = entryValues [(1, 0, FieldValue.nat 1),
        (1, 0, FieldValue.nat 2), (3, 2, FieldValue.bytes [0x41]),
        (3, 2, FieldValue.bytes [0x42])] ∧
      d.unknown_fields = List.filter isDictUnknown [(1, 0, FieldValue.nat 1),
        (1, 0, FieldValue.nat 2), (3, 2, FieldValue.bytes [0x41]),
        (3, 2, FieldValue.bytes [0x42])] ∧
      ∀ f ∈ d.unknown_fields, ¬ (f.1 = 1 ∧ f.2.1 = 0) ∧
        ¬ (f.1 = 3 ∧ f.2.1 = 2) :=
  claim_C10 [8, 1, 8, 2, 0x1A, 1, 0x41, 0x1A, 1, 0x42]
    [(1, 0, FieldValue.nat 1), (1, 0, FieldValue.nat 2),
      (3, 2, FieldValue.bytes [0x41]), (3, 2, FieldValue.bytes [0x42])]
    (by decide) (by decide) (by decide) (by decide)

/-! ### Claim C6 and the entry filter -/

theorem filter_entries_eq :
    ∀ (entries : List Bytes) (keys : List Bytes),
      (∀ e ∈ entries, ∃ r, parse_entry_key e = .ok r) →
      filter_entries_by_key entries keys =
        .ok (entries.filter (entryKeyKeep keys)) := by
  intro entries
  induction entries with
  | nil => intro keys _; rfl
  | cons e es ih =>
    intro keys hok
    obtain ⟨r, hr⟩ := hok e (by simp)
    have hrec := ih keys (fun x hx => hok x (by simp [hx]))
    cases r with
    | none =>
      have hkeep : entryKeyKeep keys e = true := by
        unfold entryKeyKeep
        rw [hr]
      simp only [filter_entries_by_key, hr, hrec, List.filter_cons, hkeep]
      simp
    | some k =>
      have hkeep : entryKeyKeep keys e = !(keys.contains k) := by
        unfold entryKeyKeep
        rw [hr]
      simp only [filter_entries_by_key, hr, hrec, List.filter_cons, hkeep]
      cases hcc : keys.contains k <;> simp

theorem filter_entries_all_keep :
    ∀ (l : List Bytes) (keys : List Bytes),
      (∀ e ∈ l, entryKeyKeep keys e = true) →
      filter_entries_by_key l keys = .ok l := by
  intro l
  induction l with
  | nil => intro keys _; rfl
  | cons e es ih =>
    intro keys h
    have hke := h e (by simp)
    have hrec := ih keys (fun x hx => h x (by simp [hx]))
    unfold entryKeyKeep at hke
    rcases hr : parse_entry_key e with err | r
    · rw [hr] at hke
      exact Bool.noConfusion hke
    · rw [hr] at hke
      simp only [filter_entries_by_key, hr, hrec]
      cases r with
      | none => rfl
      | some k =>
        have hke2 : (!keys.contains k) = true := hke
        have hc : keys.contains k = false := by
          cases hcc : keys.contains k
          · rfl
          · rw [hcc] at hke2
            exact Bool.noConfusion hke2
        have hif : (if keys.contains k = true
            then (Except.ok es : Except PErr (List Bytes))
            else Except.ok (e :: es)) = Except.ok (e :: es) := by
          rw [if_neg (by rw [hc]; exact Bool.false_ne_true)]
        exact hif

theorem filter_entries_append_ok {a b : List Bytes} {keys : List Bytes}
    {ra rb : List Bytes} (ha : filter_entries_by_key a keys = .ok ra)
    (hb : filter_entries_by_key b keys = .ok rb) :
    filter_entries_by_key (a ++ b) keys = .ok (ra ++ rb) := by
  induction a generalizing ra with
  | nil =>
    cases ha
    simpa using hb
  | cons e es ih =>
    simp only [filter_entries_by_key] at ha
    rcases hr : parse_entry_key e with err | r
    · rw [hr] at ha
      exact Except.noConfusion ha
    · rw [hr] at ha
      rcases hes : filter_entries_by_key es keys with err | res
      · rw [hes] at ha
        exact Except.noConfusion ha
      · rw [hes] at ha
        have hrec := ih hes
        simp only [List.cons_append, filter_entries_by_key, List.append_eq, hr, hrec]
        cases r with
        | none =>
          cases ha
          rfl
        | some k =>
          have ha2 : (if keys.contains k = true
              then (Except.ok res : Except PErr (List Bytes))
              else Except.ok (e :: res)) = Except.ok ra := ha
          by_cases hc : keys.contains k = true
          · rw [if_pos hc] at ha2
            cases ha2
            have hg : (if keys.contains k = true
                then (Except.ok (ra ++ rb) : Except PErr (List Bytes))
                else Except.ok (e :: (ra ++ rb))) = Except.ok (ra ++ rb) := by
              rw [if_pos hc]
            exact hg
          · rw [if_neg hc] at ha2
            cases ha2
            have hg : (if keys.contains k = true
                then (Except.ok (res ++ rb) : Except PErr (List Bytes))
                else Except.ok (e :: (res ++ rb))) = Except.ok ((e :: res) ++ rb) := by
              rw [if_neg hc]
              exact rfl
            exact hg

/-- Claim C6 (corrected). The non-fatal part holds: whenever every entry
blob itself decodes as a field sequence, the filter succeeds, and an entry
whose KEY field is absent or whose key bytes are not valid UTF-8 (parsed
key `none`) is always kept. The claim as stated is false in its third
case: an entry blob that does not decode at all makes `parse_entry_key`
raise, which `filter_entries_by_key` propagates, aborting the whole merge
(see `claim_C6_counterexample`). -/
theorem claim_C6 (entries : List Bytes) (keys : List Bytes)
    (hok : ∀ e ∈ entries, ∃ r, parse_entry_key e = .ok r) :
    filter_entries_by_key entries keys =
      .ok (entries.filter (entryKeyKeep keys)) ∧
    ∀ e ∈ entries, parse_entry_key e = .ok none →
      e ∈ entries.filter (entryKeyKeep keys) := by
  refine ⟨filter_entries_eq entries keys hok, ?_⟩
  intro e he hkey
  refine List.mem_filter.mpr ⟨he, ?_⟩
  unfold entryKeyKeep
  rw [hkey]

/-- Witness for `claim_C6`: an entry with no KEY field and one with an
invalid-UTF-8 key are both kept. -/
theorem claim_C6_witness :
    filter_entries_by_key [[0x12, 1, 0x42], [0x0A, 1, 0xFF]] [[0x41]] =
      .ok (List.filter (entryKeyKeep [[0x41]])
        [[0x12, 1, 0x42], [0x0A, 1, 0xFF]]) ∧
    ∀ e ∈ [[0x12, 1, 0x42], [0x0A, 1, 0xFF]], parse_entry_key e = .ok none →
      e ∈ List.filter (entryKeyKeep [[0x41]])
        [[0x12, 1, 0x42], [0x0A, 1, 0xFF]] :=
  claim_C6 [[0x12, 1, 0x42], [0x0A, 1, 0xFF]] [[0x41]] (by
    intro e he
    rcases List.mem_cons.mp he with rfl | he2
    · exact ⟨none, by decide⟩
    · rcases List.mem_cons.mp he2 with rfl | he3
      · exact ⟨none, by decide⟩
      · cases he3)

/-- Counterexample refuting claim C6 as stated: a dictionary whose single
entry blob is the truncated varint `[0x80]` makes the whole merge abort
with `truncatedInput` instead of keeping the entry. -/
theorem claim_C6_counterexample :
    parse_entry_key [0x80] = .error .truncatedInput ∧
    update_dictionary [0x12, 8, 8, 1, 0x1A, 1, 0x41, 0x22, 1, 0x80]
        [0x41] 1 [[0x4B]] (fun _ => [[0x4C]]) [1] =
      .error .truncatedInput := by
  exact ⟨by decide, by decide⟩

/-! ### Machinery for the update-level claims -/

theorem set_of_getElem_eq {α : Type} :
    ∀ (l : List α) (i : Nat) (a : α), l[i]? = some a → l.set i a = l := by
  intro l
  induction l with
  | nil => intro i a h; cases h
  | cons x xs ih =>
    intro i a h
    cases i with
    | zero =>
      simp only [List.getElem?_cons_zero, Option.some.injEq] at h
      rw [List.set_cons_zero, h]
    | succ j =>
      simp only [List.getElem?_cons_succ] at h
      rw [List.set_cons_succ, ih j a h]

theorem firstMatchIdx_some_spec :
    ∀ (ds : List DictionaryData) (name : Bytes) (i : Nat),
      firstMatchIdx name ds = some i →
      (∃ d, ds[i]? = some d ∧ d.name = name) ∧
      ∀ j, j < i → ∀ d, ds[j]? = some d → d.name ≠ name := by
  intro ds
  induction ds with
  | nil => intro name i h; cases h
  | cons d0 ds ih =>
    intro name i h
    unfold firstMatchIdx at h
    by_cases hn : d0.name = name
    · rw [if_pos hn] at h
      cases h
      exact ⟨⟨d0, by simp, hn⟩, fun j hj => absurd hj (Nat.not_lt_zero j)⟩
    · rw [if_neg hn] at h
      rcases hfm : firstMatchIdx name ds with _ | i0
      · rw [hfm] at h
        cases h
      · rw [hfm] at h
        simp at h
        obtain ⟨⟨d1, hd1, hd1n⟩, hbefore⟩ := ih name i0 hfm
        subst h
        refine ⟨⟨d1, by simpa using hd1, hd1n⟩, ?_⟩
        intro j hj e he
        cases j with
        | zero =>
          simp only [List.getElem?_cons_zero, Option.some.injEq] at he
          subst he
          exact hn
        | succ j0 =>
          simp only [List.getElem?_cons_succ] at he
          exact hbefore j0 (by omega) e he

theorem firstMatchIdx_append_of_none {name : Bytes} {d : DictionaryData}
    (hd : d.name = name) :
    ∀ (ds : List DictionaryData), firstMatchIdx name ds = none →
      firstMatchIdx name (ds ++ [d]) = some ds.length := by
  intro ds
  induction ds with
  | nil =>
    intro _
    show (if d.name = name then some 0 else _) = some 0
    rw [if_pos hd]
  | cons d0 ds ih =>
    intro h
    unfold firstMatchIdx at h
    by_cases hn : d0.name = name
    · rw [if_pos hn] at h
      cases h
    · rw [if_neg hn] at h
      rcases hfm : firstMatchIdx name ds with _ | i0
      · show (if d0.name = name then some 0 else
          (firstMatchIdx name (ds ++ [d])).map _) = _
        rw [if_neg hn, ih hfm]
        simp [List.length_cons]
      · rw [hfm] at h
        simp at h

theorem firstMatchIdx_set_of_some {name : Bytes} {d : DictionaryData}
    (hd : d.name = name) :
    ∀ (ds : List DictionaryData) (i : Nat), firstMatchIdx name ds = some i →
      firstMatchIdx name (ds.set i d) = some i := by
  intro ds
  induction ds with
  | nil => intro i h; cases h
  | cons d0 ds ih =>
    intro i h
    unfold firstMatchIdx at h
    by_cases hn : d0.name = name
    · rw [if_pos hn] at h
      cases h
      show (if d.name = name then some 0 else _) = some 0
      rw [if_pos hd]
    · rw [if_neg hn] at h
      rcases hfm : firstMatchIdx name ds with _ | i0
      · rw [hfm] at h
        cases h
      · rw [hfm] at h
        simp at h
        subst h
        show (if d0.name = name then some 0 else
          (firstMatchIdx name (ds.set i0 d)).map _) = _
        rw [if_neg hn, ih i0 hfm]
        rfl

theorem filter_entries_ok_keep :
    ∀ (l : List Bytes) (keys kept : List Bytes),
      filter_entries_by_key l keys = .ok kept →
      ∀ e ∈ kept, entryKeyKeep keys e = true := by
  intro l
  induction l with
  | nil =>
    intro keys kept h
    cases h
    intro e he
    cases he
  | cons e0 es ih =>
    intro keys kept h
    simp only [filter_entries_by_key] at h
    rcases hr : parse_entry_key e0 with err | r
    · rw [hr] at h
      exact Except.noConfusion h
    · rw [hr] at h
      rcases hes : filter_entries_by_key es keys with err | res
      · rw [hes] at h
        exact Except.noConfusion h
      · rw [hes] at h
        have hrec := ih keys res hes
        cases r with
        | none =>
          cases h
          intro e he
          rcases List.mem_cons.mp he with rfl | he2
          · unfold entryKeyKeep
            rw [hr]
          · exact hrec e he2
        | some k =>
          have h2 : (if keys.contains k = true
              then (Except.ok res : Except PErr (List Bytes))
              else Except.ok (e0 :: res)) = Except.ok kept := h
          by_cases hc : keys.contains k = true
          · rw [if_pos hc] at h2
            cases h2
            exact hrec
          · rw [if_neg hc] at h2
            cases h2
            intro e he
            rcases List.mem_cons.mp he with rfl | he2
            · have hcf : keys.contains k = false := by
                cases hcb : keys.contains k
                · rfl
                · exact absurd hcb hc
              unfold entryKeyKeep
              rw [hr]
              show (!keys.contains k) = true
              rw [hcf]
              rfl
            · exact hrec e he2

theorem filter_entries_remove_all :
    ∀ (l : List Bytes) (keys : List Bytes),
      (∀ e ∈ l, ∃ k, parse_entry_key e = .ok (some k) ∧
        keys.contains k = true) →
      filter_entries_by_key l keys = .ok [] := by
  intro l
  induction l with
  | nil => intro keys _; rfl
  | cons e es ih =>
    intro keys h
    obtain ⟨k, hr, hc⟩ := h e (by simp)
    have hrec := ih keys (fun x hx => h x (by simp [hx]))
    simp only [filter_entries_by_key, hr, hrec]
    have hg : (if keys.contains k = true
        then (Except.ok [] : Except PErr (List Bytes))
        else Except.ok (e :: [])) = Except.ok [] := by
      rw [if_pos hc]
    exact hg

theorem update_dictionary_created {raw name : Bytes} {pos : Nat}
    {keys : List Bytes} {values : Bytes → List Bytes} {draws : List Nat}
    {ds : List DictionaryData} {ufs : List Field} {new_id : Nat} {out : Bytes}
    (hps : parse_storage raw = .ok (ds, ufs))
    (hfm : firstMatchIdx name ds = none)
    (hid : generate_dictionary_id draws (ds.map (fun d => d.dict_id)) =
      some new_id)
    (hbs : build_storage (ds ++ [⟨new_id, name,
        build_entries_for_keys keys values pos, []⟩]) ufs = .ok out) :
    update_dictionary raw name pos keys values draws =
      .ok (some (out, ⟨name, new_id, true, keys.length,
        sumEntryCounts keys values⟩)) := by
  simp only [update_dictionary, hps, hfm, hid, hbs]

theorem update_dictionary_updated {raw name : Bytes} {pos : Nat}
    {keys : List Bytes} {values : Bytes → List Bytes} {draws : List Nat}
    {ds : List DictionaryData} {ufs : List Field} {i : Nat}
    {target : DictionaryData} {kept : List Bytes} {out : Bytes}
    (hps : parse_storage raw = .ok (ds, ufs))
    (hfm : firstMatchIdx name ds = some i)
    (ht : ds[i]? = some target)
    (hflt : filter_entries_by_key target.entries_raw keys = .ok kept)
    (hbs : build_storage (ds.set i { target with entries_raw := (kept ++
        build_entries_for_keys keys values pos) }) ufs = .ok out) :
    update_dictionary raw name pos keys values draws =
      .ok (some (out, ⟨name, target.dict_id, false, keys.length,
        sumEntryCounts keys values⟩)) := by
  simp only [update_dictionary, hps, hfm, ht, hflt, hbs]

theorem update_dictionary_some_inv {raw name : Bytes} {pos : Nat}
    {keys : List Bytes} {values : Bytes → List Bytes} {draws : List Nat}
    {ds : List DictionaryData} {ufs : List Field} {out : Bytes} {st : Stats}
    (hps : parse_storage raw = .ok (ds, ufs))
    (h : update_dictionary raw name pos keys values draws =
      .ok (some (out, st))) :
    (∃ new_id, firstMatchIdx name ds = none ∧
      generate_dictionary_id draws (ds.map (fun d => d.dict_id)) =
        some new_id ∧
      build_storage (ds ++ [⟨new_id, name,
        build_entries_for_keys keys values pos, []⟩]) ufs = .ok out ∧
      st = ⟨name, new_id, true, keys.length, sumEntryCounts keys values⟩) ∨
    (∃ i target kept, firstMatchIdx name ds = some i ∧
      ds[i]? = some target ∧
      filter_entries_by_key target.entries_raw keys = .ok kept ∧
      build_storage (ds.set i { target with entries_raw := (kept ++
        build_entries_for_keys keys values pos) }) ufs = .ok out ∧
      st = ⟨name, target.dict_id, false, keys.length,
        sumEntryCounts keys values⟩) := by
  simp only [update_dictionary, hps] at h
  rcases hfm : firstMatchIdx name ds with _ | i
  · left
    simp only [hfm] at h
    rcases hid : generate_dictionary_id draws (ds.map (fun d => d.dict_id))
      with _ | new_id
    · simp only [hid] at h
      cases h
    · simp only [hid] at h
      rcases hbs : build_storage (ds ++ [⟨new_id, name,
          build_entries_for_keys keys values pos, []⟩]) ufs with e | nr
      · simp only [hbs] at h
        cases h
      · simp only [hbs] at h
        simp only [Except.ok.injEq, Option.some.injEq, Prod.mk.injEq] at h
        exact ⟨new_id, rfl, hid, by rw [hbs, h.1], h.2.symm⟩
  · right
    simp only [hfm] at h
    rcases ht : ds[i]? with _ | target
    · simp only [ht] at h
      cases h
    · simp only [ht] at h
      rcases hflt : filter_entries_by_key target.entries_raw keys
        with e | kept
      · simp only [hflt] at h
        cases h
      · simp only [hflt] at h
        rcases hbs : build_storage (ds.set i { target with entries_raw :=
            (kept ++ build_entries_for_keys keys values pos) }) ufs
          with e | nr
        · simp only [hbs] at h
          cases h
        · simp only [hbs] at h
          simp only [Except.ok.injEq, Option.some.injEq, Prod.mk.injEq] at h
          exact ⟨i, target, kept, rfl, ht, hflt, by rw [hbs, h.1], h.2.symm⟩

theorem encodeEntries_append :
    ∀ (a b : List Bytes),
      encodeEntries (a ++ b) = encodeEntries a ++ encodeEntries b := by
  intro a b
  induction a with
  | nil => rfl
  | cons e es ih =>
    simp only [List.cons_append, encodeEntries, List.append_eq, ih,
      List.append_assoc]

theorem filter_entries_sublist :
    ∀ (l : List Bytes) (keys kept : List Bytes),
      filter_entries_by_key l keys = .ok kept → kept.Sublist l := by
  intro l
  induction l with
  | nil =>
    intro keys kept h
    cases h
    exact List.Sublist.refl []
  | cons e es ih =>
    intro keys kept h
    simp only [filter_entries_by_key] at h
    rcases hr : parse_entry_key e with err | r
    · rw [hr] at h
      exact Except.noConfusion h
    · rw [hr] at h
      rcases hes : filter_entries_by_key es keys with err | res
      · rw [hes] at h
        exact Except.noConfusion h
      · rw [hes] at h
        have hrec := ih keys res hes
        cases r with
        | none =>
          cases h
          exact List.Sublist.cons₂ e hrec
        | some k =>
          have h2 : (if keys.contains k = true
              then (Except.ok res : Except PErr (List Bytes))
              else Except.ok (e :: res)) = Except.ok kept := h
          by_cases hc : keys.contains k = true
          · rw [if_pos hc] at h2
            cases h2
            exact List.Sublist.cons e hrec
          · rw [if_neg hc] at h2
            cases h2
            exact List.Sublist.cons₂ e hrec

theorem encodeEntries_le_of_sublist {a b : List Bytes} (h : a.Sublist b) :
    (encodeEntries a).length ≤ (encodeEntries b).length := by
  rw [encodeEntries_length, encodeEntries_length]
  exact List.Sublist.sum_le_sum
    (List.Sublist.map (fun e => encFieldLen (4, 2, FieldValue.bytes e)) h)
    (fun x _ => Nat.zero_le x)

theorem length_le_encodeEntries {e : Bytes} {es : List Bytes} (h : e ∈ es) :
    e.length ≤ (encodeEntries es).length := by
  rw [encodeEntries_length]
  have hm : encFieldLen (4, 2, FieldValue.bytes e) ∈
      es.map fun x => encFieldLen (4, 2, FieldValue.bytes x) :=
    List.mem_map.mpr ⟨e, h, rfl⟩
  have hle : e.length ≤ encFieldLen (4, 2, FieldValue.bytes e) := by
    rw [encFieldLen_w2]
    unfold encodeLD
    simp only [List.length_append]
    omega
  exact le_trans hle
    (List.single_le_sum (fun x _ => Nat.zero_le x) _ hm)

theorem build_dictionary_length_le_raw {raw : Bytes}
    {ds : List DictionaryData} {ufs : List Field} {d : DictionaryData}
    (hps : parse_storage raw = .ok (ds, ufs)) (hd : d ∈ ds) :
    ∀ pb, build_dictionary d = .ok pb → pb.length ≤ raw.length := by
  intro pb hpb
  obtain ⟨fs, hf, hsf⟩ := parse_storage_inv hps
  have hk := parse_fields_kindOK hf
  obtain ⟨hdicts, _⟩ := parseStorageFields_components hsf hk
  obtain ⟨bs, hbs, hpd⟩ := parseDicts_mem (dictPayloads fs) ds hdicts d hd
  have hmem := dictPayloads_mem fs bs hbs
  obtain ⟨eb, heb, heble, _⟩ :=
    parse_fields_ok_spec raw.length raw le_rfl fs hf
  have hsum := encodeFields_length fs eb heb
  have hm : encFieldLen (2, 2, FieldValue.bytes bs) ∈
      fs.map encFieldLen := List.mem_map.mpr ⟨_, hmem, rfl⟩
  have hfl : bs.length ≤ encFieldLen (2, 2, FieldValue.bytes bs) := by
    rw [encFieldLen_w2]
    unfold encodeLD
    simp only [List.length_append]
    omega
  have hbsr : bs.length ≤ raw.length := by
    have := List.single_le_sum (fun x _ => Nat.zero_le x) _ hm
    omega
  have := build_dictionary_length_le hpd pb hpb
  omega

theorem encodeFields_entryFields (k v : Bytes) (pos : Nat) :
    encodeFields [(1, 2, FieldValue.bytes k), (2, 2, FieldValue.bytes v),
        (4, 2, FieldValue.bytes []), (5, 0, FieldValue.nat pos)] =
      .ok (build_entry k v [] pos) := by
  simp [encodeFields, encode_raw_field, build_entry, List.append_assoc]

theorem parse_build_entry {k v : Bytes} {pos : Nat}
    (hk : utf8Valid k = true) (hkl : k.length < 2 ^ 77)
    (hvl : v.length < 2 ^ 77) (hpos : pos < 2 ^ 77) :
    parse_entry_key (build_entry k v [] pos) = .ok (some k) := by
  have hpf : parse_fields (build_entry k v [] pos) =
      .ok [(1, 2, FieldValue.bytes k), (2, 2, FieldValue.bytes v),
        (4, 2, FieldValue.bytes []), (5, 0, FieldValue.nat pos)] := by
    refine parse_encode_fields_self (encodeFields_entryFields k v pos) ?_
    intro f hf
    rcases List.mem_cons.mp hf with rfl | hf
    · exact ⟨by norm_num, hkl⟩
    rcases List.mem_cons.mp hf with rfl | hf
    · exact ⟨by norm_num, hvl⟩
    rcases List.mem_cons.mp hf with rfl | hf
    · exact ⟨by norm_num, by show (0:Nat) < 2 ^ 77; norm_num⟩
    rcases List.mem_cons.mp hf with rfl | hf
    · exact ⟨by norm_num, hpos⟩
    · cases hf
  unfold parse_entry_key
  rw [hpf]
  show Except.ok (findEntryKey _) = _
  simp [findEntryKey, hk]

theorem build_entries_mem :
    ∀ (keys : List Bytes) (values : Bytes → List Bytes) (pos : Nat),
      ∀ e ∈ build_entries_for_keys keys values pos,
        ∃ k, k ∈ keys ∧ ∃ v, v ∈ values k ∧ e = build_entry k v [] pos := by
  intro keys
  induction keys with
  | nil =>
    intro values pos e he
    cases he
  | cons k0 ks ih =>
    intro values pos e he
    rcases List.mem_append.mp he with he | he
    · obtain ⟨v, hv, rfl⟩ := List.mem_map.mp he
      exact ⟨k0, by simp, v, hv, rfl⟩
    · obtain ⟨k, hk, v, hv, rfl⟩ := ih values pos e he
      exact ⟨k, by simp [hk], v, hv, rfl⟩

theorem filter_build_entries {keys : List Bytes}
    {values : Bytes → List Bytes} {pos : Nat}
    (hkutf : ∀ k ∈ keys, utf8Valid k = true)
    (hkl : ∀ k ∈ keys, k.length < 2 ^ 77)
    (hvl : ∀ k ∈ keys, ∀ v ∈ values k, v.length < 2 ^ 77)
    (hpos : pos < 2 ^ 77) :
    filter_entries_by_key (build_entries_for_keys keys values pos) keys =
      .ok [] := by
  refine filter_entries_remove_all _ keys ?_
  intro e he
  obtain ⟨k, hk, v, hv, rfl⟩ := build_entries_mem keys values pos e he
  exact ⟨k, parse_build_entry (hkutf k hk) (hkl k hk) (hvl k hk v hv) hpos,
    List.elem_eq_true_of_mem hk⟩

theorem encodeEntries_mem_lt {es : List Bytes}
    (h : (encodeEntries es).length < 2 ^ 76) :
    ∀ e ∈ es, e.length < 2 ^ 77 := by
  intro e he
  have := length_le_encodeEntries he
  have : (2:Nat) ^ 76 < 2 ^ 77 := by norm_num
  omega

theorem DictOK_new {new_id : Nat} {name : Bytes} {new_entries : List Bytes}
    (hid : new_id < 2 ^ 70) (hname : utf8Valid name = true)
    (hnl : name.length < 2 ^ 60)
    (hnew : (encodeEntries new_entries).length < 2 ^ 76) :
    DictOK ⟨new_id, name, new_entries, []⟩ := by
  refine ⟨?_, hname, ?_, encodeEntries_mem_lt hnew, ?_⟩
  · show new_id < 2 ^ 77
    have : (2:Nat) ^ 70 < 2 ^ 77 := by norm_num
    omega
  · show name.length < 2 ^ 77
    have : (2:Nat) ^ 60 < 2 ^ 77 := by norm_num
    omega
  · intro f hf
    simp at hf

theorem build_new_length {new_id : Nat} {name : Bytes}
    {new_entries : List Bytes}
    (hid : new_id < 2 ^ 70) (hnl : name.length < 2 ^ 60)
    (hnew : (encodeEntries new_entries).length < 2 ^ 76) :
    ∀ pb, build_dictionary
        (⟨new_id, name, new_entries, []⟩ : DictionaryData) = .ok pb →
      pb.length < 2 ^ 77 := by
  intro pb hpb
  have hb := @build_dictionary_of ⟨new_id, name, new_entries, []⟩ [] rfl
  rw [hpb] at hb
  have hpbe := Except.ok.inj hb
  subst hpbe
  have hidlen : (encode_varint new_id).length ≤ 10 :=
    encode_varint_length_le 9 new_id (by
      have : (2:Nat) ^ 70 = 2 ^ (7 * 10) := by norm_num
      omega)
  have hnmlen : (encode_varint name.length).length ≤ 9 :=
    encode_varint_length_le 8 name.length (by
      have : (2:Nat) ^ 60 < 2 ^ (7 * 9) := by norm_num
      omega)
  have htag1 : (encode_tag 1 0).length = 1 := by decide
  have htag3 : (encode_tag 3 2).length = 1 := by decide
  show (encodeVarintField 1 new_id ++ encodeLD 3 name ++
      encodeEntries new_entries ++ ([] : Bytes)).length < 2 ^ 77
  unfold encodeVarintField encodeLD
  simp only [List.length_append, List.length_nil]
  have h60 : name.length < 2 ^ 60 := hnl
  have hc : (2:Nat) ^ 60 + 2 ^ 76 + 21 < 2 ^ 77 := by norm_num
  omega

theorem StorageOK_append_new {ds : List DictionaryData} {ufs : List Field}
    {new_id : Nat} {name : Bytes} {new_entries : List Bytes}
    (h : StorageOK ds ufs) (hid : new_id < 2 ^ 70)
    (hname : utf8Valid name = true) (hnl : name.length < 2 ^ 60)
    (hnew : (encodeEntries new_entries).length < 2 ^ 76) :
    StorageOK (ds ++ [⟨new_id, name, new_entries, []⟩]) ufs := by
  obtain ⟨hds, hufs⟩ := h
  refine ⟨?_, hufs⟩
  intro d hd
  rcases List.mem_append.mp hd with hd | hd
  · exact hds d hd
  · have hde : d = ⟨new_id, name, new_entries, []⟩ := by
      simpa using hd
    subst hde
    exact ⟨DictOK_new hid hname hnl hnew, build_new_length hid hnl hnew⟩

theorem build_updated_length {raw : Bytes} {ds : List DictionaryData}
    {ufs : List Field} {target : DictionaryData} {kept new_entries : List Bytes}
    (hps : parse_storage raw = .ok (ds, ufs)) (htm : target ∈ ds)
    (hsub : kept.Sublist target.entries_raw)
    (hraw : raw.length < 2 ^ 76)
    (hnew : (encodeEntries new_entries).length < 2 ^ 76) :
    ∀ pb, build_dictionary { target with entries_raw :=
        kept ++ new_entries } = .ok pb → pb.length < 2 ^ 77 := by
  intro pb hpb
  have hdok : DictOK target :=
    ((parse_storage_StorageOK hps).1 target htm).1
  obtain ⟨ukb, hukb⟩ := encodeFields_of_mem_ok target.unknown_fields
    (fun f hf => (hdok.2.2.2.2 f hf).2.2.1)
  have hb0 := build_dictionary_of hukb
  have hraw0 := build_dictionary_length_le_raw hps htm _ hb0
  have hb1 : build_dictionary { target with entries_raw :=
      kept ++ new_entries } = .ok (encodeVarintField 1 target.dict_id ++
      encodeLD 3 target.name ++ encodeEntries (kept ++ new_entries) ++ ukb) :=
    build_dictionary_of hukb
  rw [hpb] at hb1
  have hpbe := Except.ok.inj hb1
  subst hpbe
  have hke := encodeEntries_le_of_sublist hsub
  have happ := encodeEntries_append kept new_entries
  simp only [List.length_append] at hraw0 ⊢
  rw [happ, List.length_append]
  have h77 : (2:Nat) ^ 76 + 2 ^ 76 = 2 ^ 77 := by norm_num
  omega

theorem StorageOK_set_updated {raw : Bytes} {ds : List DictionaryData}
    {ufs : List Field} {i : Nat} {target : DictionaryData}
    {kept new_entries : List Bytes}
    (hps : parse_storage raw = .ok (ds, ufs)) (ht : ds[i]? = some target)
    (hsub : kept.Sublist target.entries_raw)
    (hraw : raw.length < 2 ^ 76)
    (hnew : (encodeEntries new_entries).length < 2 ^ 76) :
    StorageOK (ds.set i { target with entries_raw :=
      kept ++ new_entries }) ufs := by
  obtain ⟨hds, hufs⟩ := parse_storage_StorageOK hps
  have htm : target ∈ ds := List.getElem?_mem ht
  refine ⟨?_, hufs⟩
  intro d hd
  rcases List.mem_or_eq_of_mem_set hd with hd | hd
  · exact hds d hd
  · subst hd
    obtain ⟨hdid, hdnm, hdnml, hdes, hduk⟩ := (hds target htm).1
    refine ⟨⟨hdid, hdnm, hdnml, ?_, hduk⟩,
      build_updated_length hps htm hsub hraw hnew⟩
    intro e he
    rcases List.mem_append.mp he with he | he
    · exact hdes e (hsub.subset he)
    · exact encodeEntries_mem_lt hnew e he

/-! ### Claim C2 -/

/-- Claim C2. When the parsed storage has a first dictionary named
`name` (index `i`, no earlier dictionary matches), and every existing
entry of that dictionary decodes, the merge rewrites exactly that
dictionary: its entries become the surviving old entries (those whose
parsed key is absent or not in the key set, in original order) followed
by the newly built entries (key-major, then value order, as
`build_entries_for_keys` produces them), and the returned stats carry its
id with `created = false`. -/
theorem claim_C2 (raw name : Bytes) (pos : Nat) (keys : List Bytes)
    (values : Bytes → List Bytes) (draws : List Nat)
    (ds : List DictionaryData) (ufs : List Field) (i : Nat)
    (target : DictionaryData) (out : Bytes)
    (hps : parse_storage raw = .ok (ds, ufs))
    (hfm : firstMatchIdx name ds = some i)
    (ht : ds[i]? = some target)
    (hok : ∀ e ∈ target.entries_raw, ∃ r, parse_entry_key e = .ok r)
    (hbs : build_storage (ds.set i { target with entries_raw :=
        (target.entries_raw.filter (entryKeyKeep keys) ++
        build_entries_for_keys keys values pos) }) ufs = .ok out) :
    update_dictionary raw name pos keys values draws =
      .ok (some (out, ⟨name, target.dict_id, false, keys.length,
        sumEntryCounts keys values⟩)) ∧
    target.name = name ∧
    ∀ j, j < i → ∀ d, ds[j]? = some d → d.name ≠ name := by
  have hfe := filter_entries_eq target.entries_raw keys hok
  obtain ⟨⟨d1, hd1, hd1n⟩, hbefore⟩ := firstMatchIdx_some_spec ds name i hfm
  have htd : d1 = target := by
    rw [ht] at hd1
    exact (Option.some.inj hd1).symm
  subst htd
  exact ⟨update_dictionary_updated hps hfm ht hfe hbs, hd1n, hbefore⟩

/-- Witness for `claim_C2`: the spec's example. A dictionary named `X`
holds entries `{A: old}` and `{B: keep}`; updating key `A` with value
`new` yields entries `{B: keep}` then `{A: new}`. -/
theorem claim_C2_witness :
    update_dictionary
        [18, 29, 8, 1, 26, 1, 88, 34, 10, 10, 1, 65, 18, 1, 111, 34, 0,
          40, 1, 34, 10, 10, 1, 66, 18, 1, 107, 34, 0, 40, 1]
        [88] 1 [[65]] (fun _ => [[110]]) [] =
      .ok (some ([18, 29, 8, 1, 26, 1, 88, 34, 10, 10, 1, 66, 18, 1, 107,
          34, 0, 40, 1, 34, 10, 10, 1, 65, 18, 1, 110, 34, 0, 40, 1],
        ⟨[88], 1, false, 1, 1⟩)) ∧
    (⟨1, [88], [[10, 1, 65, 18, 1, 111, 34, 0, 40, 1],
        [10, 1, 66, 18, 1, 107, 34, 0, 40, 1]], []⟩ :
      DictionaryData).name = [88] ∧
    ∀ j, j < 0 → ∀ d,
      ([⟨1, [88], [[10, 1, 65, 18, 1, 111, 34, 0, 40, 1],
          [10, 1, 66, 18, 1, 107, 34, 0, 40, 1]], []⟩] :
        List DictionaryData)[j]? = some d → d.name ≠ [88] :=
  claim_C2
    [18, 29, 8, 1, 26, 1, 88, 34, 10, 10, 1, 65, 18, 1, 111, 34, 0, 40,
      1, 34, 10, 10, 1, 66, 18, 1, 107, 34, 0, 40, 1]
    [88] 1 [[65]] (fun _ => [[110]]) []
    [⟨1, [88], [[10, 1, 65, 18, 1, 111, 34, 0, 40, 1],
      [10, 1, 66, 18, 1, 107, 34, 0, 40, 1]], []⟩] [] 0
    ⟨1, [88], [[10, 1, 65, 18, 1, 111, 34, 0, 40, 1],
      [10, 1, 66, 18, 1, 107, 34, 0, 40, 1]], []⟩
    [18, 29, 8, 1, 26, 1, 88, 34, 10, 10, 1, 66, 18, 1, 107, 34, 0, 40,
      1, 34, 10, 10, 1, 65, 18, 1, 110, 34, 0, 40, 1]
    (by decide) (by decide) (by decide)
    (by
      intro e he
      rcases List.mem_cons.mp he with rfl | he2
      · exact ⟨some [65], by decide⟩
      · rcases List.mem_cons.mp he2 with rfl | he3
        · exact ⟨some [66], by decide⟩
        · cases he3)
    (by decide)

/-! ### Claim C7 -/

theorem build_entry_length_le {k v : Bytes} {pos : Nat}
    (hkl : k.length < 2 ^ 77) (hvl : v.length < 2 ^ 77)
    (hpos : pos < 2 ^ 77) :
    (build_entry k v [] pos).length ≤ k.length + v.length + 38 := by
  have hvk : (encode_varint k.length).length ≤ 11 :=
    encode_varint_length_le 10 k.length (by norm_num at hkl ⊢; omega)
  have hvv : (encode_varint v.length).length ≤ 11 :=
    encode_varint_length_le 10 v.length (by norm_num at hvl ⊢; omega)
  have hvp : (encode_varint pos).length ≤ 11 :=
    encode_varint_length_le 10 pos (by norm_num at hpos ⊢; omega)
  have ht1 : (encode_tag 1 2).length = 1 := by decide
  have ht2 : (encode_tag 2 2).length = 1 := by decide
  have ht4 : (encode_tag 4 2).length = 1 := by decide
  have ht5 : (encode_tag 5 0).length = 1 := by decide
  have hv0 : (encode_varint 0).length = 1 := by decide
  unfold build_entry encodeLD encodeVarintField
  simp only [List.length_append, List.length_nil]
  omega

theorem encodeEntries_single_le {e : Bytes} (h : e.length < 2 ^ 77) :
    (encodeEntries [e]).length ≤ e.length + 12 := by
  have hv : (encode_varint e.length).length ≤ 11 :=
    encode_varint_length_le 10 e.length (by norm_num at h ⊢; omega)
  have ht : (encode_tag 4 2).length = 1 := by decide
  show (encodeLD 4 e ++ []).length ≤ e.length + 12
  unfold encodeLD
  simp only [List.length_append, List.length_nil]
  omega

/-- Claim C7. On an empty input buffer with one key and one value the
merge creates exactly one dictionary: the output parses back to a single
`DictionaryData` named `name` whose id is the allocated `new_id` and
whose entries are exactly the one built entry, with stats
`created = true`, one key and one entry; the id is nonzero and outside
the (empty) set of existing ids, and in general
`generate_dictionary_id` never returns zero or a member of the existing
id set. -/
theorem claim_C7 (name k v : Bytes) (pos : Nat) (draws : List Nat)
    (new_id : Nat)
    (hname : utf8Valid name = true) (hnl : name.length < 2 ^ 60)
    (hkl : k.length < 2 ^ 60) (hvl : v.length < 2 ^ 60)
    (hpos : pos < 2 ^ 70)
    (hid : generate_dictionary_id draws [] = some new_id)
    (hidb : new_id < 2 ^ 64) :
    (∃ out, update_dictionary [] name pos [k] (fun _ => [v]) draws =
        .ok (some (out, ⟨name, new_id, true, 1, 1⟩)) ∧
      parse_storage out =
        .ok ([⟨new_id, name, [build_entry k v [] pos], []⟩], [])) ∧
    new_id ≠ 0 ∧ new_id ∉ ([] : List Nat) ∧
    ∀ (dr ex : List Nat) (c : Nat), generate_dictionary_id dr ex = some c →
      c ≠ 0 ∧ c ∉ ex := by
  have hgen : ∀ (dr ex : List Nat) (c : Nat),
      generate_dictionary_id dr ex = some c → c ≠ 0 ∧ c ∉ ex := by
    intro dr ex c hc
    have hp := List.find?_some hc
    rw [Bool.and_eq_true] at hp
    obtain ⟨hp1, hp2⟩ := hp
    constructor
    · intro h0
      subst h0
      simp at hp1
    · intro hm
      have hcm : ex.contains c = true := List.elem_eq_true_of_mem hm
      rw [hcm] at hp2
      simp at hp2
  refine ⟨?_, (hgen draws [] new_id hid).1, (hgen draws [] new_id hid).2,
    hgen⟩
  have hk77 : k.length < 2 ^ 77 := by norm_num at hkl ⊢; omega
  have hv77 : v.length < 2 ^ 77 := by norm_num at hvl ⊢; omega
  have hp77 : pos < 2 ^ 77 := by norm_num at hpos ⊢; omega
  have hel := build_entry_length_le hk77 hv77 hp77
  have he77 : (build_entry k v [] pos).length < 2 ^ 77 := by
    norm_num at hkl hvl ⊢
    omega
  have hee := encodeEntries_single_le he77
  have heb : (encodeEntries [build_entry k v [] pos]).length < 2 ^ 76 := by
    norm_num at hkl hvl hee ⊢
    omega
  have hid70 : new_id < 2 ^ 70 := by norm_num at hidb ⊢; omega
  have hSOK : StorageOK [⟨new_id, name, [build_entry k v [] pos], []⟩] [] := by
    refine ⟨?_, ?_⟩
    · intro d hd
      have hde : d = ⟨new_id, name, [build_entry k v [] pos], []⟩ := by
        simpa using hd
      subst hde
      exact ⟨DictOK_new hid70 hname hnl heb, build_new_length hid70 hnl heb⟩
    · intro f hf
      simp at hf
  obtain ⟨sb, hsb, hparse⟩ := parse_build_storage hSOK
  refine ⟨sb, ?_, hparse⟩
  exact update_dictionary_created rfl rfl hid hsb

/-- Witness for `claim_C7`: name `X`, key `A`, value `B`, position 1, a
single random draw 7. -/
theorem claim_C7_witness :
    (∃ out, update_dictionary [] [88] 1 [[65]] (fun _ => [[66]]) [7] =
        .ok (some (out, ⟨[88], 7, true, 1, 1⟩)) ∧
      parse_storage out =
        .ok ([⟨7, [88], [build_entry [65] [66] [] 1], []⟩], [])) ∧
    (7 : Nat) ≠ 0 ∧ (7 : Nat) ∉ ([] : List Nat) ∧
    ∀ (dr ex : List Nat) (c : Nat), generate_dictionary_id dr ex = some c →
      c ≠ 0 ∧ c ∉ ex :=
  claim_C7 [88] [65] [66] 1 [7] 7 (by decide) (by decide) (by decide)
    (by decide) (by decide) (by decide) (by decide)

/-! ### Claim C3 -/

/-- Claim C3 (corrected). The frame property holds at the level of
parsed records, not bytes: a successful merge re-encodes a dictionary
list that differs from the parsed input in at most one position (the
updated or appended dictionary), with the top-level unknown fields
carried over unchanged, and the output is the canonical encoding
`build_storage` of exactly that data. Byte-level identity of the
untouched regions is false: non-canonically encoded input bytes are
rewritten (see `claim_C3_counterexample`). -/
theorem claim_C3 (raw name : Bytes) (pos : Nat) (keys : List Bytes)
    (values : Bytes → List Bytes) (draws : List Nat) (out : Bytes)
    (st : Stats) (ds : List DictionaryData) (ufs : List Field)
    (hps : parse_storage raw = .ok (ds, ufs))
    (h : update_dictionary raw name pos keys values draws =
      .ok (some (out, st))) :
    ∃ i ds', build_storage ds' ufs = .ok out ∧
      ∀ j : Nat, j ≠ i → ds'[j]? = ds[j]? := by
  rcases update_dictionary_some_inv hps h with
    ⟨nid, hfm, hid, hbs, hst⟩ | ⟨i, tg, kp, hfm, ht, hflt, hbs, hst⟩
  · refine ⟨ds.length, _, hbs, ?_⟩
    intro j hj
    rw [List.getElem?_append]
    by_cases hlt : j < ds.length
    · rw [if_pos hlt]
    · rw [if_neg hlt]
      have h1 : ds[j]? = none := List.getElem?_eq_none (by omega)
      have h2 : ([(⟨nid, name, build_entries_for_keys keys values pos,
          []⟩ : DictionaryData)])[j - ds.length]? = none :=
        List.getElem?_eq_none (by simp; omega)
      rw [h1, h2]
  · refine ⟨i, _, hbs, ?_⟩
    intro j hj
    exact List.getElem?_set_ne (fun he => hj he.symm)

/-- Witness for `claim_C3`: updating the storage whose only content is
the non-canonical unknown field `[0x88, 0x00, 0x00]` appends one new
dictionary and keeps the parsed unknown field. -/
theorem claim_C3_witness :
    ∃ i ds', build_storage ds' [(1, 0, FieldValue.nat 0)] =
      .ok [18, 17, 8, 1, 26, 1, 88, 34, 10, 10, 1, 65, 18, 1, 66, 34, 0,
        40, 1, 8, 0] ∧
      ∀ j : Nat, j ≠ i → ds'[j]? = ([] : List DictionaryData)[j]? :=
  claim_C3 [136, 0, 0] [88] 1 [[65]] (fun _ => [[66]]) [1]
    [18, 17, 8, 1, 26, 1, 88, 34, 10, 10, 1, 65, 18, 1, 66, 34, 0, 40, 1,
      8, 0]
    ⟨[88], 1, true, 1, 1⟩ [] [(1, 0, FieldValue.nat 0)]
    (by decide) (by decide)

/-- Counterexample refuting claim C3 as stated: the input's unknown
top-level field is encoded non-canonically as `[0x88, 0x00]` (a
two-byte varint tag) plus value `0x00`; after merging an unrelated new
dictionary the output re-encodes that field canonically as `[8, 0]`,
so the byte `0x88` of the unknown field does not survive anywhere in
the output. -/
theorem claim_C3_counterexample :
    (136 ∈ ([136, 0, 0] : Bytes)) ∧
    update_dictionary [136, 0, 0] [88] 1 [[65]] (fun _ => [[66]]) [1] =
      .ok (some ([18, 17, 8, 1, 26, 1, 88, 34, 10, 10, 1, 65, 18, 1, 66,
        34, 0, 40, 1, 8, 0], ⟨[88], 1, true, 1, 1⟩)) ∧
    ¬ (136 ∈ ([18, 17, 8, 1, 26, 1, 88, 34, 10, 10, 1, 65, 18, 1, 66,
        34, 0, 40, 1, 8, 0] : Bytes)) := by
  exact ⟨by decide, by decide, by decide⟩

/-! ### Claim C4 -/

/-- Claim C4. Applying the same update (same name, keys, values,
position) to the output of a first successful application returns the
first output byte-for-byte: the filter step removes exactly the entries
added by the first run before re-adding them, and re-encoding the
unchanged records reproduces the same canonical bytes. Stated under the
decidable well-formedness bounds on the update arguments (valid UTF-8
name and keys, sizes within the decoder's caps). -/
theorem claim_C4 (raw name : Bytes) (pos : Nat) (keys : List Bytes)
    (values : Bytes → List Bytes) (draws draws2 : List Nat)
    (out1 : Bytes) (st1 : Stats)
    (h1 : update_dictionary raw name pos keys values draws =
      .ok (some (out1, st1)))
    (hname : utf8Valid name = true) (hnl : name.length < 2 ^ 60)
    (hkutf : ∀ k ∈ keys, utf8Valid k = true)
    (hkl : ∀ k ∈ keys, k.length < 2 ^ 60)
    (hvl : ∀ k ∈ keys, ∀ v ∈ values k, v.length < 2 ^ 60)
    (hpos : pos < 2 ^ 70)
    (hraw : raw.length < 2 ^ 76)
    (hnew : (encodeEntries (build_entries_for_keys keys values pos)).length
      < 2 ^ 76)
    (hdraws : ∀ c ∈ draws, c < 2 ^ 64) :
    ∃ st2, update_dictionary out1 name pos keys values draws2 =
      .ok (some (out1, st2)) ∧ st2.created = false := by
  have hk77 : ∀ k ∈ keys, k.length < 2 ^ 77 := by
    intro k hk
    have := hkl k hk
    have h0 : (2:Nat) ^ 60 < 2 ^ 77 := by norm_num
    omega
  have hv77 : ∀ k ∈ keys, ∀ v ∈ values k, v.length < 2 ^ 77 := by
    intro k hk v hv
    have := hvl k hk v hv
    have h0 : (2:Nat) ^ 60 < 2 ^ 77 := by norm_num
    omega
  have hp77 : pos < 2 ^ 77 := by
    have h0 : (2:Nat) ^ 70 < 2 ^ 77 := by norm_num
    omega
  have hfbe := filter_build_entries hkutf hk77 hv77 hp77
  rcases hpsr : parse_storage raw with e | p
  · rw [update_dictionary, hpsr] at h1
    cases h1
  obtain ⟨ds, ufs⟩ := p
  rcases update_dictionary_some_inv hpsr h1 with
    ⟨nid, hfm, hid, hbs, hst⟩ | ⟨i, tg, kp, hfm, ht, hflt, hbs, hst⟩
  · have hnid : nid < 2 ^ 70 := by
      have hmem := List.mem_of_find?_eq_some hid
      have := hdraws nid hmem
      have h0 : (2:Nat) ^ 64 < 2 ^ 70 := by norm_num
      omega
    have hSOK := StorageOK_append_new (parse_storage_StorageOK hpsr)
      hnid hname hnl hnew
    obtain ⟨sb, hsb, hparse⟩ := parse_build_storage hSOK
    have hsbe : sb = out1 := by
      rw [hbs] at hsb
      exact (Except.ok.inj hsb).symm
    subst hsbe
    have hfm2 := @firstMatchIdx_append_of_none name
      ⟨nid, name, build_entries_for_keys keys values pos, []⟩ rfl ds hfm
    have ht2 : (ds ++ [(⟨nid, name, build_entries_for_keys keys values pos,
        []⟩ : DictionaryData)])[ds.length]? =
        some ⟨nid, name, build_entries_for_keys keys values pos, []⟩ := by
      rw [List.getElem?_append, if_neg (lt_irrefl ds.length)]
      simp
    have hbs2 : build_storage ((ds ++ [(⟨nid, name,
        build_entries_for_keys keys values pos, []⟩ :
        DictionaryData)]).set ds.length
        { (⟨nid, name, build_entries_for_keys keys values pos, []⟩ :
          DictionaryData) with entries_raw :=
          (([] : List Bytes) ++ build_entries_for_keys keys values pos) })
        ufs = .ok sb := by
      have hrec : ({ (⟨nid, name, build_entries_for_keys keys values pos,
          []⟩ : DictionaryData) with entries_raw :=
          (([] : List Bytes) ++ build_entries_for_keys keys values pos) }) =
          (⟨nid, name, build_entries_for_keys keys values pos, []⟩ :
          DictionaryData) := rfl
      rw [hrec, set_of_getElem_eq _ _ _ ht2]
      exact hsb
    exact ⟨_, update_dictionary_updated hparse hfm2 ht2 hfbe hbs2, rfl⟩
  · have hsub := filter_entries_sublist _ _ _ hflt
    have hSOK := StorageOK_set_updated hpsr ht hsub hraw hnew
    obtain ⟨sb, hsb, hparse⟩ := parse_build_storage hSOK
    have hsbe : sb = out1 := by
      rw [hbs] at hsb
      exact (Except.ok.inj hsb).symm
    subst hsbe
    have htgname : tg.name = name := by
      obtain ⟨⟨d1, hd1, hd1n⟩, _⟩ := firstMatchIdx_some_spec ds name i hfm
      rw [ht] at hd1
      rw [Option.some.inj hd1]
      exact hd1n
    have hilen : i < ds.length := by
      by_contra hc
      rw [List.getElem?_eq_none (by omega)] at ht
      cases ht
    have hfm2 : firstMatchIdx name (ds.set i { tg with entries_raw :=
        (kp ++ build_entries_for_keys keys values pos) }) = some i :=
      @firstMatchIdx_set_of_some name { tg with entries_raw :=
        (kp ++ build_entries_for_keys keys values pos) } htgname ds i hfm
    have ht2 : (ds.set i { tg with entries_raw :=
        (kp ++ build_entries_for_keys keys values pos) })[i]? =
        some { tg with entries_raw :=
        (kp ++ build_entries_for_keys keys values pos) } := by
      rw [List.getElem?_set_self]
      · simp [hilen]
    have hkeep := filter_entries_ok_keep _ _ _ hflt
    have hflt2 : filter_entries_by_key
        (kp ++ build_entries_for_keys keys values pos) keys =
        .ok (kp ++ []) :=
      filter_entries_append_ok (filter_entries_all_keep kp keys hkeep) hfbe
    have hbs2 : build_storage ((ds.set i { tg with entries_raw :=
        (kp ++ build_entries_for_keys keys values pos) }).set i
        { { tg with entries_raw :=
            (kp ++ build_entries_for_keys keys values pos) } with
          entries_raw := ((kp ++ []) ++
            build_entries_for_keys keys values pos) }) ufs = .ok sb := by
      have hrec : ({ { tg with entries_raw :=
          (kp ++ build_entries_for_keys keys values pos) } with
          entries_raw := ((kp ++ []) ++
            build_entries_for_keys keys values pos) } : DictionaryData) =
          { tg with entries_raw :=
            (kp ++ build_entries_for_keys keys values pos) } := by
        rw [List.append_nil]
      rw [hrec, List.set_set]
      exact hsb
    exact ⟨_, update_dictionary_updated hparse hfm2 ht2 hflt2 hbs2, rfl⟩

/-- Witness for `claim_C4`: creating dictionary `X` from an empty buffer
and re-applying the identical update leaves the bytes unchanged. -/
theorem claim_C4_witness :
    ∃ st2, update_dictionary
        [18, 17, 8, 7, 26, 1, 88, 34, 10, 10, 1, 65, 18, 1, 66, 34, 0,
          40, 1]
        [88] 1 [[65]] (fun _ => [[66]]) [] =
      .ok (some ([18, 17, 8, 7, 26, 1, 88, 34, 10, 10, 1, 65, 18, 1, 66,
        34, 0, 40, 1], st2)) ∧ st2.created = false :=
  claim_C4 [] [88] 1 [[65]] (fun _ => [[66]]) [7] []
    [18, 17, 8, 7, 26, 1, 88, 34, 10, 10, 1, 65, 18, 1, 66, 34, 0, 40, 1]
    ⟨[88], 7, true, 1, 1⟩
    (by decide) (by decide) (by decide) (by decide) (by decide)
    (by decide) (by decide) (by decide) (by decide) (by decide)

end UD
